import Mathlib

/-!
Verification of the Figma variables converter & exporter core.

This file gives a shallow embedding, in Lean 4, of the parts of the
TypeScript code base relevant to the frozen claims: the token keyword
tables and name-based type detectors, the numeric conversion helpers,
the CSS document builder and theme slugging, the variable graph with
recursive alias resolution, the custom base64 encoder, and the GitHub
commit protocol (`pushCssThemesToGitHub`) modelled over a scripted
network oracle.  Machine numbers are modelled as rationals, impure
inputs (timestamps, network responses) as explicit parameters.
-/

/- ### JavaScript-flavoured string and number primitives

The embeddings below avoid the library's `String.toLower`, `trim`,
`endsWith` and friends on purpose: every helper is structurally
recursive over `List Char`, so that all definitions reduce inside the
kernel and concrete instances can be settled by `decide` / `rfl`. -/

/-- ASCII lower-casing of one character, the fragment of JavaScript
`toLowerCase` exercised by every variable name in the claims. -/
def jsCharLower (c : Char) : Char :=
  if 'A' ≤ c ∧ c ≤ 'Z' then Char.ofNat (c.toNat + 32) else c

/-- `name.toLowerCase()` on ASCII strings. -/
def toLowerCase (s : String) : String :=
  ⟨s.data.map jsCharLower⟩

/-- Contiguous-sublist test on char lists, structurally recursive. -/
def isSubChunk (sub : List Char) : List Char → Bool
  | [] => sub.isEmpty
  | c :: cs => sub.isPrefixOf (c :: cs) || isSubChunk sub cs

/-- JavaScript `haystack.includes(needle)` (contiguous substring). -/
def containsSub (haystack needle : String) : Bool :=
  isSubChunk needle.data haystack.data

/-- JavaScript `s.endsWith(t)`. -/
def endsWithStr (s suffix : String) : Bool :=
  suffix.data.isSuffixOf s.data

/-- JavaScript `s.trim()` (whitespace from both ends). -/
def trimStr (s : String) : String :=
  ⟨(((s.data.dropWhile Char.isWhitespace).reverse.dropWhile Char.isWhitespace).reverse)⟩

/-- `Array.prototype.join(sep)` for strings. -/
def joinSep (sep : String) : List String → String
  | [] => ""
  | [s] => s
  | s :: rest => s ++ sep ++ joinSep sep rest

/-- JavaScript `Math.round`: round half toward positive infinity. -/
def jsRound (q : ℚ) : ℤ := ⌊q + 1 / 2⌋

/-- `Math.max(lo, Math.min(hi, v))`, the clamping pattern of the code. -/
def jsClamp (v lo hi : ℚ) : ℚ := max lo (min hi v)

/-- Decimal digits of a rational in `[0,1)`, up to a digit budget; used
to render fractional parts the way JavaScript prints short decimals. -/
def decimalDigits : Nat → ℚ → String
  | 0, _ => ""
  | n + 1, q =>
    if q = 0 then ""
    else
      let d : ℤ := ⌊q * 10⌋
      Int.repr d ++ decimalDigits n (q * 10 - (d : ℚ))

/-- JavaScript number-to-string for the (finite, short-decimal) values
the converter produces: integers print with no fractional part. -/
def jsNumToString (q : ℚ) : String :=
  if q.den = 1 then Int.repr q.num
  else
    (if q < 0 then "-" else "") ++ Int.repr ⌊|q|⌋ ++ "." ++
      decimalDigits 30 (|q| - (⌊|q|⌋ : ℚ))

/- ### Token keyword tables — `constants/token-patterns.ts`

Two revisions of the table exist in the repository.  `TokenPatterns`
is the trimmed table of `src/constants/token-patterns.ts`;
`TokenPatternsFull` is the richer table (shadow / gradient keyword
sets and the size regex) that `variable-type-detector.service.ts`
imports. -/

namespace TokenPatterns

def MEASURES_KEYWORDS : List String :=
  ["spacing", "space", "gap", "margin", "padding", "pad", "size", "width",
   "height", "dimension", "radius", "rounded", "corner", "opacity", "alpha",
   "transparency", "duration", "timing", "animation", "transition", "border"]

def FONTS_KEYWORDS : List String :=
  ["font", "fontfamily", "fontweight", "fontsize", "textCase",
   "textDecoration", "underline"]

def OPACITY_KEYWORDS : List String := ["opacity", "alpha"]

def WEIGHT_KEYWORDS : List String := ["weight", "fontweight"]

def DURATION_KEYWORDS : List String := ["duration", "timing"]

def ZINDEX_KEYWORDS : List String := ["zindex", "z-index"]

end TokenPatterns

namespace TokenPatternsFull

def MEASURES_KEYWORDS : List String :=
  ["spacing", "space", "gap", "margin", "padding", "pad", "size", "width",
   "height", "dimension", "radius", "rounded", "corner", "opacity", "alpha",
   "transparency", "duration", "timing", "animation", "transition", "border",
   "fontSize", "lineHeight"]

def FONTS_KEYWORDS : List String :=
  ["font", "weight", "family", "typeface", "bold", "light", "medium",
   "regular", "textCase", "textDecoration", "underline"]

def SHADOWS_KEYWORDS : List String :=
  ["shadow", "elevation", "depth", "boxShadow", "innerShadow"]

def GRADIENT_KEYWORDS : List String := ["gradient", "linear", "radial"]

end TokenPatternsFull

/- The `SIZE_PATTERN` regex `/\b(xs|sm|md|lg|xl|xxl|\d+)\b/`:
a word-bounded occurrence of one of the alternatives. -/

/-- Regex word character `\w` = `[A-Za-z0-9_]`. -/
def isWordChar (c : Char) : Bool :=
  ('a' ≤ c ∧ c ≤ 'z') || ('A' ≤ c ∧ c ≤ 'Z') || c.isDigit || c = '_'

/-- No word character at position `i - 1` (or `i = 0`): a `\b` boundary
immediately before a word-charactered match starting at `i`. -/
def boundaryBefore (cs : List Char) (i : Nat) : Bool :=
  i = 0 || !(isWordChar (cs.getD (i - 1) ' '))

/-- No word character at position `j` (or `j = cs.length`): a `\b`
boundary immediately after a word-charactered match ending at `j`. -/
def boundaryAfter (cs : List Char) (j : Nat) : Bool :=
  j = cs.length || !(isWordChar (cs.getD j ' '))

/-- Word-bounded literal alternative match at position `i`. -/
def wordMatchAt (cs : List Char) (i : Nat) (alt : List Char) : Bool :=
  alt.isPrefixOf (cs.drop i) && boundaryBefore cs i &&
    boundaryAfter cs (i + alt.length)

/-- Word-bounded digit run `\b\d+\b` covering `[i, j)`. -/
def digitRunAt (cs : List Char) (i j : Nat) : Bool :=
  decide (i < j) && decide (j ≤ cs.length) &&
    ((cs.drop i).take (j - i)).all Char.isDigit &&
    boundaryBefore cs i && boundaryAfter cs j

/-- `SIZE_PATTERN.test(name)` for `/\b(xs|sm|md|lg|xl|xxl|\d+)\b/`. -/
def sizePatternTest (s : String) : Bool :=
  let cs := s.data
  (List.range (cs.length + 1)).any (fun i =>
    (["xs", "sm", "md", "lg", "xl", "xxl"]).any
        (fun alt => wordMatchAt cs i alt.data) ||
      (List.range (cs.length + 1)).any (fun j => digitRunAt cs i j))

/- ### Variable categories — `types/variable.types.ts` -/

/-- Category a variable name classifies into. -/
inductive VariableCategory where
  | color
  | fonts
  | measures
  | shadow
  | gradient
deriving DecidableEq, Repr

/- ### Type detector, service revision
`services/variable-type-detector.service.ts` (keyword tables from the
full `token-patterns` revision it imports). -/

namespace TypeDetectorService

def isMeasuresVariable (name : String) : Bool :=
  TokenPatternsFull.MEASURES_KEYWORDS.any (fun term => containsSub name term) ||
    sizePatternTest name

def isFontsVariable (name : String) : Bool :=
  TokenPatternsFull.FONTS_KEYWORDS.any (fun term => containsSub name term)

def isShadowsVariable (name : String) : Bool :=
  TokenPatternsFull.SHADOWS_KEYWORDS.any (fun term => containsSub name term)

def isGradientVariable (name : String) : Bool :=
  TokenPatternsFull.GRADIENT_KEYWORDS.any (fun term => containsSub name term)

/-- The `typeDetectors.find(...)` chain of the service: measures,
fonts, shadow, gradient, in that order, defaulting to `color`. -/
def detectVariableType (name : String) : VariableCategory :=
  let lowerName := toLowerCase name
  if isMeasuresVariable lowerName then .measures
  else if isFontsVariable lowerName then .fonts
  else if isShadowsVariable lowerName then .shadow
  else if isGradientVariable lowerName then .gradient
  else .color

end TypeDetectorService

/- ### Type detector, raw-CSS revision (the simplified detector that
checks an explicit "color" substring first and defaults to measures). -/

namespace TypeDetectorRaw

def isFontsVariable (name : String) : Bool :=
  TokenPatterns.FONTS_KEYWORDS.any (fun term => containsSub name term)

def detectVariableType (name : String) : VariableCategory :=
  let lowerName := toLowerCase name
  if containsSub lowerName "color" then .color
  else if containsSub lowerName "fontfamily" || containsSub lowerName "fontweight" ||
      containsSub lowerName "fontsize" || isFontsVariable lowerName then .fonts
  else .measures

end TypeDetectorRaw

/- ### Numeric helpers — `helpers/numeric.helper.ts` -/

/-- `BASE_FONT_SIZE` from `constants/conversion.constants.ts`. -/
def BASE_FONT_SIZE : ℚ := 16

/-- Pixel-to-rem conversion: `` `${px / BASE_FONT_SIZE}rem` ``. -/
def pxToRem (px : ℚ) : String :=
  jsNumToString (px / BASE_FONT_SIZE) ++ "rem"

/- `MIN_FONT_WEIGHT` / `MAX_FONT_WEIGHT` (only drive a console warning
in `safeFloatConversion`; the value is emitted unchanged). -/

def MIN_FONT_WEIGHT : ℤ := 100

def MAX_FONT_WEIGHT : ℤ := 900

/- ### Value converter — `services/value-converter.service.ts`

`safeFloatConversion(floatValue, variableName, _variable)`.  The
`isValidNumber` guard rejects `NaN`/`±Infinity`, which the rational
model cannot represent (the claims quantify over finite numbers
only); every branch below mirrors the finite-input behaviour.  The
out-of-range console warnings have no effect on the returned string
and are dropped. -/

def safeFloatConversion (floatValue : ℚ) (variableName : String) : String :=
  let variableNameLower := toLowerCase variableName
  if TokenPatterns.OPACITY_KEYWORDS.any
      (fun keyword => containsSub variableNameLower keyword) then
    let clampedValue := jsClamp floatValue 0 1
    Int.repr (jsRound (clampedValue * 100)) ++ "%"
  else if TokenPatterns.WEIGHT_KEYWORDS.any
      (fun keyword => containsSub variableNameLower keyword) then
    Int.repr (jsRound floatValue)
  else if TokenPatterns.DURATION_KEYWORDS.any
      (fun keyword => containsSub variableNameLower keyword) then
    if floatValue < 0 then "0ms" else jsNumToString floatValue ++ "ms"
  else if TokenPatterns.ZINDEX_KEYWORDS.any
      (fun keyword => containsSub variableNameLower keyword) then
    Int.repr (jsRound floatValue)
  else if floatValue < 0 then pxToRem |floatValue|
  else pxToRem floatValue

/-- `safeStringConversion`: trim, return the raw value unquoted. -/
def safeStringConversion (stringValue : String) (_variableName : String) : String :=
  trimStr stringValue

/- ### String helpers — `helpers/string.helper.ts` -/

/-- Collapses maximal whitespace runs to single dashes
(`replace(/\s+/g, '-')`); `prevWs` remembers a pending run. -/
def collapseWsAux : Bool → List Char → List Char
  | _, [] => []
  | prevWs, c :: rest =>
    if c.isWhitespace then
      if prevWs then collapseWsAux true rest
      else '-' :: collapseWsAux true rest
    else c :: collapseWsAux false rest

/-- `toKebabCase`: `str.toLowerCase().replace(/\s+/g, '-')`. -/
def toKebabCase (str : String) : String :=
  ⟨collapseWsAux false (toLowerCase str).data⟩

/-- `hasPotentiallyUnsafeChars`. -/
def hasPotentiallyUnsafeChars (value : String) : Bool :=
  containsSub value ";" || containsSub value "\x7b" || containsSub value "\x7d"

/- ### base64 — `base64Encode` of `helpers/string.helper.ts`

The input string is modelled as its list of UTF-16 code units
(`charCodeAt` results); the implicit claim restricts these to bytes. -/

/-- The base64 alphabet `chars` of the source. -/
def b64chars : List Char :=
  "ABCDEFGHIJKLMNOPQRSTUVWXYZabcdefghijklmnopqrstuvwxyz0123456789+/".data

/-- `chars.charAt(i)` for the 6-bit indices produced by the encoder. -/
def b64charAt (i : Nat) : Char := b64chars.getD i 'A'

/-- One iteration of the encoder's `while` loop: three code units are
packed into `bitmap` and emitted as four alphabet characters. -/
def b64group (a b c : Nat) : List Char :=
  let bitmap := ((a <<< 16) ||| (b <<< 8)) ||| c
  [b64charAt ((bitmap >>> 18) &&& 63), b64charAt ((bitmap >>> 12) &&& 63),
   b64charAt ((bitmap >>> 6) &&& 63), b64charAt (bitmap &&& 63)]

/-- The whole `while` loop: missing second/third code units read as 0. -/
def base64Core : List Nat → List Char
  | [] => []
  | [a] => b64group a 0 0
  | [a, b] => b64group a b 0
  | a :: b :: c :: rest => b64group a b c ++ base64Core rest

/-- `base64Encode`: run the loop, then replace the tail of the last
group by `=` padding according to `inputStr.length % 3`
(`slice(0,-2) + "=="` / `slice(0,-1) + "="`). -/
def base64Encode (input : List Nat) : List Char :=
  let result := base64Core input
  if input.length % 3 = 1 then result.dropLast.dropLast ++ ['=', '=']
  else if input.length % 3 = 2 then result.dropLast ++ ['=']
  else result

/- Reference RFC 4648 decoder (spec side, for the round-trip claim). -/

/-- Index of a character in the base64 alphabet. -/
def b64value (c : Char) : Option Nat :=
  b64chars.findIdx? (fun d => d = c)

/-- Reference RFC 4648 decoder: the input is consumed in groups of
four characters; a final group ending in `"=="` or `"="` yields one or
two bytes, any other group yields three. -/
def base64Decode : List Char → Option (List Nat)
  | [] => some []
  | p :: q :: r :: s :: rest =>
    if rest.isEmpty ∧ r = '=' ∧ s = '=' then do
      let x ← b64value p
      let y ← b64value q
      some [x * 4 + y / 16]
    else if rest.isEmpty ∧ s = '=' then do
      let x ← b64value p
      let y ← b64value q
      let z ← b64value r
      some [x * 4 + y / 16, (y % 16) * 16 + z / 4]
    else do
      let x ← b64value p
      let y ← b64value q
      let z ← b64value r
      let w ← b64value s
      let tail ← base64Decode rest
      some ([x * 4 + y / 16, (y % 16) * 16 + z / 4, (z % 4) * 64 + w] ++ tail)
  | _ => none

/-- Trailing `'='` count of an encoder output. -/
def trailingEqCount (cs : List Char) : Nat :=
  (cs.reverse.takeWhile (fun c => c = '=')).length

/- ### CSS builder — `services/css-builder.service.ts` -/

/-- `CSSVariable`.  The `type` field is kept as a plain string so that
the builder's `grouped[variable.type] || grouped.measures` fallback
(unknown categories land in measures) is representable. -/
structure CSSVariable where
  name : String
  value : String
  type : String
deriving DecidableEq, Repr

/-- Name/value pair held in a section bucket. -/
structure NV where
  name : String
  value : String
deriving DecidableEq, Repr

/-- Strict character order (UTF code points; agrees with UTF-16 code
units on the basic plane, which is JavaScript's unit of comparison). -/
def charLt (a b : Char) : Bool := a.toNat < b.toNat

/-- Lexicographic order on char lists. -/
def lexLe : List Char → List Char → Bool
  | [], _ => true
  | _ :: _, [] => false
  | a :: as, b :: bs => if a = b then lexLe as bs else charLt a b

/-- Lexicographic string order, the model of the builder's
`a.name.localeCompare(b.name)` comparator (the spec documents the sort
as lexicographic by output name). -/
def strLe (s t : String) : Bool := lexLe s.data t.data

/-- Stable insertion into a name-sorted list: the new entry goes in
front of the first entry it compares `≤` to. -/
def insertByName (x : NV) : List NV → List NV
  | [] => [x]
  | y :: ys => if strLe x.name y.name then x :: y :: ys else y :: insertByName x ys

/-- Stable insertion sort by entry name: the model of the JavaScript
stable `Array.prototype.sort` with the name comparator. -/
def sortByName : List NV → List NV
  | [] => []
  | x :: xs => insertByName x (sortByName xs)

/-- `groupVariablesByType`, color bucket (input order preserved). -/
def groupColor (vars : List CSSVariable) : List NV :=
  (vars.filter (fun v => v.type = "color")).map (fun v => ⟨v.name, v.value⟩)

/-- `groupVariablesByType`, fonts bucket. -/
def groupFonts (vars : List CSSVariable) : List NV :=
  (vars.filter (fun v => v.type = "fonts")).map (fun v => ⟨v.name, v.value⟩)

/-- `groupVariablesByType`, measures bucket: explicit `"measures"`
entries and every unknown type (`grouped[t] || grouped.measures`). -/
def groupMeasures (vars : List CSSVariable) : List NV :=
  (vars.filter (fun v => ¬(v.type = "color") ∧ ¬(v.type = "fonts"))).map
    (fun v => ⟨v.name, v.value⟩)

/-- `SECTION_LABELS`. -/
def SECTION_LABELS : List String := ["Colors", "Fonts", "Measures"]

/-- Renders one section from already-sorted entries (the shape every
section of the emitted document takes). -/
def renderSection (label : String) (sortedEntries : List NV) : String :=
  if sortedEntries.isEmpty then "  /* " ++ label ++ " */"
  else
    let lines := joinSep "\n"
      (sortedEntries.map (fun v => "  " ++ v.name ++ ": " ++ v.value ++ ";"))
    ("  /* " ++ label ++ " */") ++ "\n" ++ lines

/-- `formatSection`: comment header, then the entries sorted by name. -/
def formatSection (label : String) (entries : List NV) : String :=
  if entries.isEmpty then "  /* " ++ label ++ " */"
  else
    let lines := joinSep "\n"
      ((sortByName entries).map
        (fun v => "  " ++ v.name ++ ": " ++ v.value ++ ";"))
    ("  /* " ++ label ++ " */") ++ "\n" ++ lines

/-- The three `(label, sorted entries)` sections of a document, in the
fixed `GROUP_ORDER` = color, fonts, measures. -/
def sectionsOf (vars : List CSSVariable) : List (String × List NV) :=
  [("Colors", sortByName (groupColor vars)),
   ("Fonts", sortByName (groupFonts vars)),
   ("Measures", sortByName (groupMeasures vars))]

/-- `buildCssOutput` (the export timestamp is a parameter, standing
for `new Date().toISOString()`). -/
def buildCssOutput (exportTimestamp : String) (cssVariables : List CSSVariable) : String :=
  let sections :=
    [formatSection "Colors" (groupColor cssVariables),
     formatSection "Fonts" (groupFonts cssVariables),
     formatSection "Measures" (groupMeasures cssVariables)]
  joinSep "\n"
    ["/*", " * Design tokens exported from Figma",
     " * Exported at: " ++ exportTimestamp,
     " * Format: Raw CSS variables grouped by kind", " */",
     ":root \x7b", joinSep "\n" sections, "\x7d", ""]

/-- The per-theme key of `buildThemeAwareCssOutput`: kebab-case the
full mode name, then strip a trailing `-light` (the source's anchored
regex replace drops exactly the final 6 characters when present). -/
def themeSlug (singleTheme : Bool) (theme : String) : String :=
  let themeName := if singleTheme then "theme" else toKebabCase theme
  if endsWithStr themeName "-light" then
    ⟨themeName.data.take (themeName.data.length - 6)⟩
  else themeName

/-- `buildThemeAwareCssOutput` over an ordered theme map. -/
def buildThemeAwareCssOutput (exportTimestamp : String)
    (variablesByTheme : List (String × List CSSVariable)) :
    List (String × String) :=
  let singleTheme := variablesByTheme.length = 1
  variablesByTheme.map
    (fun p => (themeSlug singleTheme p.1, buildCssOutput exportTimestamp p.2))

/- ### Variable graph — Figma plugin API data model

`figma.variables.getVariableByIdAsync` becomes a lookup in an explicit
variable registry.  Color channel components are rationals; the OKLCH
conversion itself (the external `Colorizr` library, floating point) is
a parameter `oklch` of the resolution model — the alias claims do not
depend on its numeric content, only on its output string. -/

/-- RGB / RGBA payload of a COLOR variable (`a = none` for plain RGB). -/
structure FigmaColor where
  r : ℚ
  g : ℚ
  b : ℚ
  a : Option ℚ

/-- Raw value under one mode: a literal or a `VariableAlias`. -/
inductive VariableValue where
  | aliasRef (id : String)
  | colorLit (c : FigmaColor)
  | floatLit (v : ℚ)
  | strLit (s : String)

/-- `Variable.resolvedType`. -/
inductive ResolvedType where
  | COLOR
  | FLOAT
  | STRING
deriving DecidableEq

/-- A Figma variable: id, name, resolved type, `valuesByMode`. -/
structure FigmaVariable where
  id : String
  name : String
  resolvedType : ResolvedType
  valuesByMode : List (String × VariableValue)

/-- The variable registry (`figma.variables`). -/
abbrev VariableGraph := List FigmaVariable

/-- `getVariableByIdAsync`. -/
def getVariableById (g : VariableGraph) (id : String) : Option FigmaVariable :=
  g.find? (fun v => v.id = id)

/-- `valuesByMode[modeId]`. -/
def lookupMode (valuesByMode : List (String × VariableValue)) (modeId : String) :
    Option VariableValue :=
  (valuesByMode.find? (fun p => p.1 = modeId)).map Prod.snd

/-- `FALLBACK_OKLCH_COLOR`.  Modelled from the spec: the current
revision of `constants/conversion.constants.ts` is not in the sources;
the spec fixes one canonical fallback color constant, and the sibling
revision (`css-generator.ts`) uses the literal `"oklch(0 0 0)"`. -/
def FALLBACK_OKLCH_COLOR : String := "oklch(0 0 0)"

/-- `safeColorConversion` of `value-converter.service.ts`: on a
structurally valid color object it returns `convertColorToOklch`
(the `oklch` parameter); the invalid-object and exception branches are
unreachable for the typed color payloads of the model. -/
def safeColorConversion (oklch : FigmaColor → String) (colorValue : FigmaColor)
    (_variableName : String) : String :=
  oklch colorValue

/-- `resolveAliasToRawValue`, with an explicit recursion budget: the
source recursion carries no visited set and no depth bound, so the
embedding charges one unit of `fuel` per recursive call and returns
`none` when the budget is exhausted — a run of the source that never
returns corresponds to exhausting every finite budget.  `some r`
mirrors the source's returned `string | null` (`r = none` is `null`). -/
def resolveAliasToRawValue (oklch : FigmaColor → String) (g : VariableGraph) :
    Nat → FigmaVariable → String → Option (Option String)
  | 0, _, _ => none
  | fuel + 1, aliasedVariable, modeId =>
    match lookupMode aliasedVariable.valuesByMode modeId with
    | none => some none
    | some (.aliasRef nestedAliasId) =>
      match getVariableById g nestedAliasId with
      | some nestedVariable =>
        resolveAliasToRawValue oklch g fuel nestedVariable modeId
      | none => some none
    | some rawValue =>
      some (some
        (match aliasedVariable.resolvedType, rawValue with
         | .COLOR, .colorLit c => safeColorConversion oklch c aliasedVariable.name
         | .FLOAT, .floatLit v => safeFloatConversion v aliasedVariable.name
         | .STRING, .strLit s => safeStringConversion s aliasedVariable.name
         | .COLOR, _ => FALLBACK_OKLCH_COLOR
         | .FLOAT, _ => "0"
         | .STRING, _ => ""))

/-- `convertColorValue` of `css-value-generator.service.ts`.  The
optional `modeId` argument is a string, `""` standing for `undefined`
(`modeId || Object.keys(valuesByMode)[0]` picks the first mode key on
a falsy argument).  `none` propagates an exhausted recursion budget. -/
def convertColorValue (oklch : FigmaColor → String) (g : VariableGraph)
    (fuel : Nat) (v : FigmaVariable) (modeId : String) : Option String :=
  match v.valuesByMode with
  | [] => some FALLBACK_OKLCH_COLOR
  | (firstMode, _) :: _ =>
    let targetModeId := if modeId = "" then firstMode else modeId
    match lookupMode v.valuesByMode targetModeId with
    | some (.aliasRef aliasId) =>
      match getVariableById g aliasId with
      | some aliasedVariable =>
        match resolveAliasToRawValue oklch g fuel aliasedVariable targetModeId with
        | none => none
        | some (some resolvedValue) =>
          some (if resolvedValue = "" then FALLBACK_OKLCH_COLOR else resolvedValue)
        | some none => some FALLBACK_OKLCH_COLOR
      | none => some FALLBACK_OKLCH_COLOR
    | some (.colorLit colorValue) =>
      some (safeColorConversion oklch colorValue v.name)
    | some _ => some FALLBACK_OKLCH_COLOR
    | none => some FALLBACK_OKLCH_COLOR

/-- Boolean rank-decrease check at one variable: if its value for
`modeId` is an alias whose target exists in the graph, the target must
rank strictly lower.  A rank function satisfying this along a mode is
a certificate that the alias chains of that mode are acyclic. -/
def aliasRankOk (g : VariableGraph) (modeId : String)
    (rank : FigmaVariable → Nat) (v : FigmaVariable) : Bool :=
  match lookupMode v.valuesByMode modeId with
  | some (.aliasRef nid) =>
    match getVariableById g nid with
    | some w => decide (rank w < rank v)
    | none => true
  | _ => true

/- ### GitHub commit protocol — `github-service.ts`

`pushCssThemesToGitHub` is modelled as a pure function of a scripted
network oracle `env : Nat → HttpResponse` that answers the `k`-th
network call of the execution; the function returns the structured
result together with the full ordered request trace.  Long
user-guidance message texts are abbreviated to their first line — the
claims depend on control flow and on the `success` flag, not on the
help text. -/

/-- `GITHUB_CONFIG`: the four boundary inputs. -/
structure GitHubConfig where
  owner : String
  repo : String
  path : String
  token : String

/-- The response fields the service reads: `ok`, `status`,
`statusText`, the JSON body's `message`, and the JSON body's SHA field
(`object.sha`, `tree.sha` or `sha`, depending on the endpoint). -/
structure HttpResponse where
  ok : Bool
  status : Nat
  statusText : String
  message : String
  sha : String

/-- The network oracle: the reply to the `k`-th request issued. -/
abbrev NetOracle := Nat → HttpResponse

/-- `GitHubTreeItem`. -/
structure GitHubTreeItem where
  path : String
  mode : String
  type : String
  sha : String
deriving DecidableEq, Repr

/-- One REST call of the protocol, in the shape the service issues. -/
inductive GitRequest where
  | getRef (owner repo branch : String)
  | postRef (owner repo ref sha : String)
  | getCommit (owner repo sha : String)
  | postBlob (owner repo content encoding : String)
  | postTree (owner repo baseTree : String) (tree : List GitHubTreeItem)
  | postCommit (owner repo message tree : String) (parents : List String)
  | patchRef (owner repo branch sha : String) (force : Bool)
deriving DecidableEq, Repr

/-- `GitHubApiResponse`. -/
structure GitHubApiResponse where
  success : Bool
  message : String
  sha : Option String
deriving DecidableEq, Repr

/-- The protocol step at which an execution failed. -/
inductive ProtocolStep where
  | validate
  | resolveBase
  | createRef
  | fetchBaseTree
  | createBlob
  | createTree
  | createCommit
  | updateRef
deriving DecidableEq, Repr

/-- Full observable outcome of one `pushCssThemesToGitHub` run:
structured result, request trace, failing step (if any), the resolved
base commit SHA and the feature branch actually created. -/
structure PushOutcome where
  response : GitHubApiResponse
  trace : List GitRequest
  failedStep : Option ProtocolStep
  baseShaUsed : Option String
  featureBranchCreated : Option String
deriving Repr

/-- Base-branch resolution: try `["master", "main"]` in order; first
`ok` ref lookup wins. -/
def resolveBaseLoop (cfg : GitHubConfig) (env : NetOracle) :
    List String → List GitRequest → List GitRequest × Option (String × String)
  | [], tr => (tr, none)
  | candidate :: rest, tr =>
    let response := env tr.length
    let tr' := tr ++ [.getRef cfg.owner cfg.repo candidate]
    if response.ok then (tr', some (candidate, response.sha))
    else resolveBaseLoop cfg env rest tr'

/-- The feature-branch creation `while` loop: `fuel` counts the
remaining attempts out of 3, `attempt` the attempts already made; a
422 response whose body message contains "already exists" retries
under the next suffixed name, any other failure is fatal. -/
def createBranchLoop (cfg : GitHubConfig) (env : NetOracle)
    (baseSha featureBranch : String) :
    Nat → Nat → List GitRequest → List GitRequest × Except String String
  | 0, _, tr => (tr, .error "Failed to create feature branch after multiple attempts")
  | fuel + 1, attempt, tr =>
    let branchName :=
      if attempt = 0 then featureBranch
      else featureBranch ++ "-" ++ Nat.repr attempt
    let response := env tr.length
    let tr' := tr ++ [.postRef cfg.owner cfg.repo ("refs/heads/" ++ branchName) baseSha]
    if response.ok then (tr', .ok branchName)
    else if response.status = 422 ∧ containsSub response.message "already exists" then
      createBranchLoop cfg env baseSha featureBranch fuel (attempt + 1) tr'
    else if response.status = 403 then
      (tr', .error "GitHub Access Denied (403 Forbidden)")
    else if response.status = 404 then
      (tr', .error "Repository Not Found (404)")
    else if response.status = 401 then
      (tr', .error "Authentication Failed (401 Unauthorized)")
    else
      (tr', .error ("Failed to create branch " ++ branchName ++ ": " ++
        Nat.repr response.status ++ " " ++ response.statusText))

/-- The branch name tried on attempt number `attempt` (the `branchName`
constant inside the branch-creation loop). -/
def branchNameAt (featureBranch : String) (attempt : Nat) : String :=
  if attempt = 0 then featureBranch
  else featureBranch ++ "-" ++ Nat.repr attempt

/-- Blob creation loop over the theme files (`Object.entries` order);
empty content falls back to the placeholder comment, contents travel
base64-encoded. -/
def createBlobsLoop (cfg : GitHubConfig) (env : NetOracle) :
    List (String × String) → List GitRequest →
      List GitRequest × Except String (List GitHubTreeItem)
  | [], tr => (tr, .ok [])
  | (themeName, content) :: rest, tr =>
    let payload := if content = "" then "/* No variables exported */" else content
    let response := env tr.length
    let tr' := tr ++ [.postBlob cfg.owner cfg.repo
      ⟨base64Encode (payload.data.map Char.toNat)⟩ "base64"]
    if response.ok then
      match createBlobsLoop cfg env rest tr' with
      | (tr'', .ok items) =>
        (tr'', .ok (⟨cfg.path ++ "/" ++ themeName ++ "/variables.css", "100644",
          "blob", response.sha⟩ :: items))
      | (tr'', .error e) => (tr'', .error e)
    else
      (tr', .error ("Failed to create blob for " ++ themeName ++ ".css: " ++
        Nat.repr response.status))

/-- Wraps a thrown error into the `catch` branch's structured result. -/
def pushFailure (msg : String) (tr : List GitRequest) (step : ProtocolStep)
    (baseSha featureBranch : Option String) : PushOutcome :=
  ⟨⟨false, "Error: " ++ msg, none⟩, tr, some step, baseSha, featureBranch⟩

/-- The commit-message listing of theme names (the `themesLabel`
constant inside `pushCssThemesToGitHub`). -/
def themesLabelOf : List String → String
  | [single] => single
  | names => Nat.repr names.length ++ " themes (" ++ joinSep ", " names ++ ")"

/-- `pushCssThemesToGitHub`.  `timestampSlug` / `timestampLabel` stand
for the two `formatCETTimestamp()` components. -/
def pushCssThemesToGitHub (cfg : GitHubConfig) (timestampSlug timestampLabel : String)
    (themeFiles : List (String × String)) (env : NetOracle) : PushOutcome :=
  let themeNames := themeFiles.map Prod.fst
  if themeFiles.isEmpty then
    pushFailure "No CSS themes to push" [] .validate none none
  else if cfg.path = "" then
    pushFailure "GitHub config path is not set." [] .validate none none
  else
    match resolveBaseLoop cfg env ["master", "main"] [] with
    | (tr, none) =>
      pushFailure "Failed to resolve base branch." tr .resolveBase none none
    | (tr, some (baseBranch, baseSha)) =>
      let featureBranch0 := "feat/figma-variables-" ++ timestampSlug
      match createBranchLoop cfg env baseSha featureBranch0 3 0 tr with
      | (tr, .error msg) =>
        pushFailure msg tr .createRef (some baseSha) none
      | (tr, .ok featureBranch) =>
        let commitResponse := env tr.length
        let tr := tr ++ [.getCommit cfg.owner cfg.repo baseSha]
        if ¬commitResponse.ok then
          pushFailure ("Failed to get commit: " ++ Nat.repr commitResponse.status ++
              " " ++ commitResponse.statusText)
            tr .fetchBaseTree (some baseSha) (some featureBranch)
        else
          let baseTreeSha := commitResponse.sha
          match createBlobsLoop cfg env themeFiles tr with
          | (tr, .error msg) =>
            pushFailure msg tr .createBlob (some baseSha) (some featureBranch)
          | (tr, .ok treeItems) =>
            let treeResponse := env tr.length
            let tr := tr ++ [.postTree cfg.owner cfg.repo baseTreeSha treeItems]
            if ¬treeResponse.ok then
              pushFailure ("Failed to create tree: " ++ Nat.repr treeResponse.status ++
                  " " ++ treeResponse.statusText)
                tr .createTree (some baseSha) (some featureBranch)
            else
              let newTreeSha := treeResponse.sha
              let themesLabel := themesLabelOf themeNames
              let commitMessage :=
                "feat(figma-variables): Figma variables exported " ++ timestampLabel ++
                  "\n\nExported themes: " ++ themesLabel ++ "\nBase branch: " ++ baseBranch
              let newCommitResponse := env tr.length
              let tr := tr ++ [.postCommit cfg.owner cfg.repo commitMessage newTreeSha [baseSha]]
              if ¬newCommitResponse.ok then
                pushFailure ("Failed to create commit: " ++
                    Nat.repr newCommitResponse.status ++ " " ++ newCommitResponse.statusText)
                  tr .createCommit (some baseSha) (some featureBranch)
              else
                let newCommitSha := newCommitResponse.sha
                let updateRefResponse := env tr.length
                let tr := tr ++ [.patchRef cfg.owner cfg.repo featureBranch newCommitSha false]
                if ¬updateRefResponse.ok then
                  pushFailure ("Failed to update branch: " ++
                      Nat.repr updateRefResponse.status ++ " " ++ updateRefResponse.statusText)
                    tr .updateRef (some baseSha) (some featureBranch)
                else
                  ⟨⟨true, "Successfully pushed " ++ Nat.repr themeNames.length ++
                      " CSS theme file(s) to " ++ featureBranch ++ " in a single commit",
                    some newCommitSha⟩,
                   tr, none, some baseSha, some featureBranch⟩

/- Remote-reference semantics: replaying a trace against the oracle
yields the branch table the repository ends up with — a `postRef`
answered `ok` creates a branch at its SHA, a `patchRef` answered `ok`
moves it, nothing else touches refs. -/

/-- Effect of the `i`-th request on the branch table. -/
def refEventApply (env : NetOracle) (i : Nat) (req : GitRequest)
    (refs : String → Option String) : String → Option String :=
  match req with
  | .postRef _ _ ref sha =>
    if (env i).ok then
      fun b => if ("refs/heads/" ++ b) = ref then some sha else refs b
    else refs
  | .patchRef _ _ branch sha _ =>
    if (env i).ok then
      fun b => if b = branch then some sha else refs b
    else refs
  | _ => refs

/-- Branch table after replaying a request list starting at index `i`. -/
def refsAfterAux (env : NetOracle) :
    List GitRequest → Nat → (String → Option String) → String → Option String
  | [], _, refs => refs
  | req :: rest, i, refs => refsAfterAux env rest (i + 1) (refEventApply env i req refs)

/-- Branch table after a whole trace (starting from no branches). -/
def refsAfter (env : NetOracle) (tr : List GitRequest) : String → Option String :=
  refsAfterAux env tr 0 (fun _ => none)

/-- Is a request the ref-update `PATCH`? -/
def GitRequest.isPatchRef : GitRequest → Bool
  | .patchRef _ _ _ _ _ => true
  | _ => false

/- ### Export orchestration — `services/export.service.ts` -/

/-- `ConversionResult` (the fields the export reads). -/
structure ConversionResult where
  vars : List CSSVariable
  themes : List String
  variablesByTheme : Option (List (String × List CSSVariable))

/-- `assertGitHubConfig`: collects the empty fields; `some msg` models
the thrown configuration error. -/
def assertGitHubConfig (cfg : GitHubConfig) : Option String :=
  let missing : List String :=
    (if cfg.owner = "" then ["owner"] else []) ++
    (if cfg.repo = "" then ["repo"] else []) ++
    (if cfg.path = "" then ["path"] else []) ++
    (if cfg.token = "" then ["token"] else [])
  if missing.isEmpty then none
  else some ("GitHub configuration is incomplete. Missing: " ++ joinSep ", " missing)

/-- `exportToGitHub`: configuration check first, then CSS generation,
then the push; the returned trace is the full list of network calls
the invocation issued. -/
def exportToGitHub (cfg : GitHubConfig) (data : ConversionResult) (env : NetOracle)
    (exportTimestamp timestampSlug timestampLabel : String) :
    GitHubApiResponse × List GitRequest :=
  match assertGitHubConfig cfg with
  | some msg => (⟨false, msg, none⟩, [])
  | none =>
    if data.variablesByTheme.isSome ∧ data.themes.length > 0 then
      let themeOutput :=
        buildThemeAwareCssOutput exportTimestamp (data.variablesByTheme.getD [])
      let outcome := pushCssThemesToGitHub cfg timestampSlug timestampLabel themeOutput env
      (if outcome.response.success then
        ⟨true, "Successfully exported variables in a single commit", none⟩
      else ⟨false, outcome.response.message, none⟩, outcome.trace)
    else
      let cssOutput := buildCssOutput exportTimestamp data.vars
      let outcome :=
        pushCssThemesToGitHub cfg timestampSlug timestampLabel [("theme", cssOutput)] env
      (if outcome.response.success then ⟨true, "Successfully exported variables", none⟩
      else ⟨false, outcome.response.message, none⟩, outcome.trace)

/- ### Spec-side predicates and concrete instances used by the claims -/

/-- Name matches the opacity/alpha keyword group (case-insensitively). -/
def opacityName (name : String) : Bool :=
  TokenPatterns.OPACITY_KEYWORDS.any (fun keyword => containsSub (toLowerCase name) keyword)

/-- Name matches the font-weight keyword group. -/
def weightName (name : String) : Bool :=
  TokenPatterns.WEIGHT_KEYWORDS.any (fun keyword => containsSub (toLowerCase name) keyword)

/-- Name matches the duration/timing keyword group. -/
def durationName (name : String) : Bool :=
  TokenPatterns.DURATION_KEYWORDS.any (fun keyword => containsSub (toLowerCase name) keyword)

/-- Name matches the z-index keyword group. -/
def zindexName (name : String) : Bool :=
  TokenPatterns.ZINDEX_KEYWORDS.any (fun keyword => containsSub (toLowerCase name) keyword)

/-- Name order used by the section sort. -/
def nameLe (a b : NV) : Prop := strLe a.name b.name = true

/-- Divergence of the alias resolver on one query: every finite
recursion budget is exhausted, i.e. the source recursion never
returns on this input. -/
def resolveDiverges (oklch : FigmaColor → String) (g : VariableGraph)
    (v : FigmaVariable) (modeId : String) : Prop :=
  ∀ fuel, resolveAliasToRawValue oklch g fuel v modeId = none

/-- A stand-in OKLCH converter for concrete instances (the claims
never depend on the numeric content of the conversion). -/
def oklchDummy : FigmaColor → String := fun _ => "oklch(0 0 0)"

/-- Self-aliasing variable: its value for mode `m` aliases itself. -/
def cycleVarA : FigmaVariable := ⟨"VA", "colorLoop", .COLOR, [("m", .aliasRef "VA")]⟩

/-- One-variable graph whose alias chain for mode `m` is a cycle. -/
def cycleGraph : VariableGraph := [cycleVarA]

/-- Three-variable chain `A → B → C`, `C` holding a color literal. -/
def chainVarC : FigmaVariable :=
  ⟨"VC", "colorBase", .COLOR, [("m", .colorLit ⟨1, 0, 0, none⟩)]⟩

def chainVarB : FigmaVariable := ⟨"VB", "colorMid", .COLOR, [("m", .aliasRef "VC")]⟩

def chainVarA : FigmaVariable := ⟨"VA", "colorTop", .COLOR, [("m", .aliasRef "VB")]⟩

def chainGraph : VariableGraph := [chainVarA, chainVarB, chainVarC]

/-- Rank certificate for `chainGraph` along mode `m`. -/
def chainRank : FigmaVariable → Nat :=
  fun v => if v.id = "VA" then 2 else if v.id = "VB" then 1 else 0

/-- A network oracle whose every reply succeeds. -/
def envAllOk : NetOracle := fun k => ⟨true, 200, "OK", "", "sha" ++ Nat.repr k⟩

/-- An oracle failing from the fifth call on: with one theme file the
fifth call is the `POST trees`, so the protocol fails at CreateTree. -/
def envTreeFail : NetOracle := fun k =>
  if k < 4 then ⟨true, 200, "OK", "", "sha" ++ Nat.repr k⟩
  else ⟨false, 500, "Internal Server Error", "", ""⟩

/-- An oracle whose second call (the branch creation) answers 422
"already exists" and which succeeds afterwards. -/
def envCollideOnce : NetOracle := fun k =>
  if k = 1 then ⟨false, 422, "Unprocessable Entity", "Reference already exists", ""⟩
  else ⟨true, 200, "OK", "", "sha" ++ Nat.repr k⟩

/-- An oracle whose branch creation is rejected outright (403). -/
def envForbiddenRef : NetOracle := fun k =>
  if k = 0 then ⟨true, 200, "OK", "", "base"⟩
  else ⟨false, 403, "Forbidden", "Resource not accessible", ""⟩

/-- An oracle on which every branch creation collides. -/
def envAlwaysCollide : NetOracle := fun k =>
  if k = 0 then ⟨true, 200, "OK", "", "base"⟩
  else ⟨false, 422, "Unprocessable Entity", "Reference already exists", ""⟩

/-- Demonstration configuration (all four boundary inputs set). -/
def cfgDemo : GitHubConfig := ⟨"owner", "repo", "tokens", "tok"⟩

/-- Demonstration theme files. -/
def demoThemes : List (String × String) := [("light", "a {}")]

/- ### Order lemmas for the section sort -/

theorem charToNat_inj {a b : Char} (h : a.toNat = b.toNat) : a = b := by
  apply Char.ext
  apply UInt32.ext
  simpa [Char.toNat, UInt32.toNat] using h

theorem lexLe_total : ∀ as bs : List Char, lexLe as bs = true ∨ lexLe bs as = true := by
  intro as
  induction as with
  | nil => intro bs; left; rfl
  | cons a as ih =>
    intro bs
    cases bs with
    | nil => right; rfl
    | cons b bs =>
      by_cases hab : a = b
      · subst hab
        rcases ih bs with h | h
        · left; simpa [lexLe] using h
        · right; simpa [lexLe] using h
      · have hnat : a.toNat ≠ b.toNat := fun hc => hab (charToNat_inj hc)
        rcases Nat.lt_or_ge a.toNat b.toNat with h | h
        · left
          simp only [lexLe, if_neg hab]
          simp [charLt, h]
        · have hba : b.toNat < a.toNat := lt_of_le_of_ne h (fun hc => hnat hc.symm)
          right
          simp only [lexLe, if_neg (Ne.symm hab)]
          simp [charLt, hba]

theorem lexLe_trans : ∀ as bs cs : List Char,
    lexLe as bs = true → lexLe bs cs = true → lexLe as cs = true := by
  intro as
  induction as with
  | nil => intro bs cs _ _; rfl
  | cons a as ih =>
    intro bs cs h1 h2
    cases bs with
    | nil => simp [lexLe] at h1
    | cons b bs =>
      cases cs with
      | nil => simp [lexLe] at h2
      | cons c cs =>
        by_cases hab : a = b <;> by_cases hbc : b = c
        · subst hab hbc
          simp only [lexLe, if_pos rfl] at h1 h2 ⊢
          exact ih bs cs h1 h2
        · subst hab
          simpa [lexLe, hbc] using h2
        · subst hbc
          simpa [lexLe, hab] using h1
        · simp only [lexLe, if_neg hab] at h1
          simp only [lexLe, if_neg hbc] at h2
          simp only [charLt, decide_eq_true_eq] at h1 h2
          by_cases hac : a = c
          · exact absurd (hac ▸ Nat.lt_trans h1 h2) (by omega)
          · simp only [lexLe, if_neg hac]
            simp [charLt, Nat.lt_trans h1 h2]

theorem lexLe_antisymm : ∀ as bs : List Char,
    lexLe as bs = true → lexLe bs as = true → as = bs := by
  intro as
  induction as with
  | nil =>
    intro bs _ h2
    cases bs with
    | nil => rfl
    | cons b bs => simp [lexLe] at h2
  | cons a as ih =>
    intro bs h1 h2
    cases bs with
    | nil => simp [lexLe] at h1
    | cons b bs =>
      by_cases hab : a = b
      · subst hab
        simp only [lexLe, if_pos rfl] at h1 h2
        exact congrArg (a :: ·) (ih bs h1 h2)
      · simp only [lexLe, if_neg hab, charLt, decide_eq_true_eq] at h1
        simp only [lexLe, if_neg (Ne.symm hab), charLt, decide_eq_true_eq] at h2
        omega

theorem strLe_total (s t : String) : strLe s t = true ∨ strLe t s = true :=
  lexLe_total s.data t.data

theorem strLe_trans {s t u : String} (h1 : strLe s t = true) (h2 : strLe t u = true) :
    strLe s u = true :=
  lexLe_trans s.data t.data u.data h1 h2

theorem strLe_antisymm {s t : String} (h1 : strLe s t = true) (h2 : strLe t s = true) :
    s = t := by
  cases s; cases t
  exact congrArg _ (lexLe_antisymm _ _ h1 h2)

/- ### Insertion sort lemmas -/

theorem insertByName_perm (x : NV) :
    ∀ l : List NV, List.Perm (insertByName x l) (x :: l) := by
  intro l
  induction l with
  | nil => exact List.Perm.refl _
  | cons y ys ih =>
    by_cases h : strLe x.name y.name
    · simp [insertByName, h]
    · simp only [insertByName, if_neg h]
      exact (ih.cons y).trans (List.Perm.swap x y ys)

theorem sortByName_perm : ∀ l : List NV, List.Perm (sortByName l) l := by
  intro l
  induction l with
  | nil => exact List.Perm.refl _
  | cons x xs ih =>
    exact (insertByName_perm x (sortByName xs)).trans (ih.cons x)

theorem insertByName_pairwise (x : NV) :
    ∀ l : List NV, l.Pairwise nameLe → (insertByName x l).Pairwise nameLe := by
  intro l
  induction l with
  | nil => intro _; simp [insertByName, nameLe]
  | cons y ys ih =>
    intro hp
    rcases List.pairwise_cons.mp hp with ⟨hy, hys⟩
    by_cases h : strLe x.name y.name
    · simp only [insertByName, if_pos h]
      refine List.pairwise_cons.mpr ⟨?_, hp⟩
      intro z hz
      rcases List.mem_cons.mp hz with rfl | hz'
      · exact h
      · exact strLe_trans h (hy z hz')
    · simp only [insertByName, if_neg h]
      refine List.pairwise_cons.mpr ⟨?_, ih hys⟩
      intro z hz
      have hz' := (insertByName_perm x ys).mem_iff.mp hz
      rcases List.mem_cons.mp hz' with rfl | hz''
      · rcases strLe_total z.name y.name with h' | h'
        · exact absurd h' h
        · exact h'
      · exact hy z hz''

theorem sortByName_pairwise : ∀ l : List NV, (sortByName l).Pairwise nameLe := by
  intro l
  induction l with
  | nil => simp [sortByName]
  | cons x xs ih => exact insertByName_pairwise x (sortByName xs) ih

/-- Two name-sorted lists that are permutations of each other and have
pairwise-distinct names are equal. -/
theorem sorted_perm_nodup_eq : ∀ l₁ l₂ : List NV, List.Perm l₁ l₂ →
    l₁.Pairwise nameLe → l₂.Pairwise nameLe →
    (l₁.map NV.name).Nodup → l₁ = l₂ := by
  intro l₁
  induction l₁ with
  | nil =>
    intro l₂ hp _ _ _
    exact (hp.symm.eq_nil).symm
  | cons a as ih =>
    intro l₂ hp h1 h2 hn
    cases l₂ with
    | nil => exact absurd hp.symm (by simp)
    | cons b bs =>
      rcases List.pairwise_cons.mp h1 with ⟨ha, _⟩
      rcases List.pairwise_cons.mp h2 with ⟨hb, hbs⟩
      by_cases hab : a = b
      · subst hab
        have hperm := hp.cons_inv
        have hn' : (as.map NV.name).Nodup := (List.nodup_cons.mp hn).2
        exact congrArg (a :: ·) (ih bs hperm (List.pairwise_cons.mp h1).2 hbs hn')
      · have hamem : a ∈ b :: bs := hp.mem_iff.mp (List.mem_cons_self a as)
        have hbmem : b ∈ a :: as := hp.mem_iff.mpr (List.mem_cons_self b bs)
        have habs : a ∈ bs := by
          rcases List.mem_cons.mp hamem with h | h
          · exact absurd h hab
          · exact h
        have hbas : b ∈ as := by
          rcases List.mem_cons.mp hbmem with h | h
          · exact absurd h.symm hab
          · exact h
        have hnames : a.name = b.name :=
          strLe_antisymm (ha b hbas) (hb a habs)
        have hmem : a.name ∈ as.map NV.name :=
          hnames ▸ List.mem_map_of_mem NV.name hbas
        exact absurd hmem (List.nodup_cons.mp hn).1

/- ### C3 — type-classification precedence -/

/-- C3 counterexample: the claim asserts `classify("borderColor") = Color`
for `detectVariableType`, but the detector of
`variable-type-detector.service.ts` tests the measures keyword group
first ("borderColor" contains "border") and classifies it as Measures,
not Color. -/
theorem type_classification_counterexample :
    TypeDetectorService.detectVariableType "borderColor" = VariableCategory.measures ∧
      VariableCategory.measures ≠ VariableCategory.color := by
  constructor
  · decide
  · decide

/-- C3 (amended): the raw-CSS revision of `detectVariableType` tests an
explicit "color" substring first, else the font keyword group,
otherwise defaults to Measures — so a name matching several groups
resolves to the earliest, and `borderColor ↦ Color`,
`spacing-md ↦ Measures`, `fontWeightBold ↦ Fonts`; the service
revision instead tests measures, fonts, shadows, gradient in that
fixed order and defaults to Color, so `borderColor ↦ Measures`
there. -/
theorem type_classification_precedence :
    (∀ name, containsSub (toLowerCase name) "color" = true →
      TypeDetectorRaw.detectVariableType name = VariableCategory.color) ∧
    (∀ name, containsSub (toLowerCase name) "color" = false →
      (containsSub (toLowerCase name) "fontfamily" ||
        containsSub (toLowerCase name) "fontweight" ||
        containsSub (toLowerCase name) "fontsize" ||
        TypeDetectorRaw.isFontsVariable (toLowerCase name)) = true →
      TypeDetectorRaw.detectVariableType name = VariableCategory.fonts) ∧
    (∀ name, containsSub (toLowerCase name) "color" = false →
      (containsSub (toLowerCase name) "fontfamily" ||
        containsSub (toLowerCase name) "fontweight" ||
        containsSub (toLowerCase name) "fontsize" ||
        TypeDetectorRaw.isFontsVariable (toLowerCase name)) = false →
      TypeDetectorRaw.detectVariableType name = VariableCategory.measures) ∧
    TypeDetectorRaw.detectVariableType "borderColor" = VariableCategory.color ∧
    TypeDetectorRaw.detectVariableType "spacing-md" = VariableCategory.measures ∧
    TypeDetectorRaw.detectVariableType "fontWeightBold" = VariableCategory.fonts ∧
    (∀ name, TypeDetectorService.isMeasuresVariable (toLowerCase name) = true →
      TypeDetectorService.detectVariableType name = VariableCategory.measures) ∧
    (∀ name, TypeDetectorService.isMeasuresVariable (toLowerCase name) = false →
      TypeDetectorService.isFontsVariable (toLowerCase name) = true →
      TypeDetectorService.detectVariableType name = VariableCategory.fonts) ∧
    (∀ name, TypeDetectorService.isMeasuresVariable (toLowerCase name) = false →
      TypeDetectorService.isFontsVariable (toLowerCase name) = false →
      TypeDetectorService.isShadowsVariable (toLowerCase name) = false →
      TypeDetectorService.isGradientVariable (toLowerCase name) = false →
      TypeDetectorService.detectVariableType name = VariableCategory.color) := by
  refine ⟨?_, ?_, ?_, by decide, by decide, by decide, ?_, ?_, ?_⟩
  · intro name h
    simp [TypeDetectorRaw.detectVariableType, h]
  · intro name h hf
    simp [TypeDetectorRaw.detectVariableType, h, hf]
  · intro name h hf
    simp [TypeDetectorRaw.detectVariableType, h, hf]
  · intro name h
    simp [TypeDetectorService.detectVariableType, h]
  · intro name h hf
    simp [TypeDetectorService.detectVariableType, h, hf]
  · intro name h1 h2 h3 h4
    simp [TypeDetectorService.detectVariableType, h1, h2, h3, h4]

/-- C3 witness: the amended precedence theorem at concrete names. -/
theorem type_classification_witness :
    containsSub (toLowerCase "textColor") "color" = true ∧
      TypeDetectorRaw.detectVariableType "textColor" = VariableCategory.color ∧
      TypeDetectorService.isMeasuresVariable (toLowerCase "borderColor") = true ∧
      TypeDetectorService.detectVariableType "borderColor" = VariableCategory.measures :=
  ⟨by decide, type_classification_precedence.1 "textColor" (by decide),
   by decide, (type_classification_precedence.2.2.2.2.2.2.1) "borderColor" (by decide)⟩

/- ### C5 — theme slugging -/

/-- C5: a single-theme map is keyed by the literal slug `"theme"`; a
multi-theme map is keyed per theme by the kebab-case slug of the full
mode display name with a trailing `-light` stripped exactly when
present; `"Dark Mode" ↦ "dark-mode"` and `"Brand Light" ↦ "brand"`. -/
theorem theme_slugging_spec :
    (∀ ts (m : List (String × List CSSVariable)), m.length = 1 →
      (buildThemeAwareCssOutput ts m).map Prod.fst = ["theme"]) ∧
    (∀ ts (m : List (String × List CSSVariable)), 1 < m.length →
      (buildThemeAwareCssOutput ts m).map Prod.fst =
        m.map (fun p =>
          let slug := toKebabCase p.1
          if endsWithStr slug "-light" = true then
            (⟨slug.data.take (slug.data.length - 6)⟩ : String)
          else slug)) ∧
    (∀ s, themeSlug false s =
      (let slug := toKebabCase s
       if endsWithStr slug "-light" = true then
         (⟨slug.data.take (slug.data.length - 6)⟩ : String)
       else slug)) ∧
    themeSlug false "Dark Mode" = "dark-mode" ∧
    themeSlug false "Brand Light" = "brand" := by
  refine ⟨?_, ?_, ?_, by decide, by decide⟩
  · intro ts m hm
    match m, hm with
    | [(t, vs)], _ =>
      simp [buildThemeAwareCssOutput, themeSlug]
      decide
  · intro ts m hm
    have hne : ¬(m.length = 1) := by omega
    simp only [buildThemeAwareCssOutput, hne, if_false, List.map_map]
    refine List.map_congr_left ?_
    intro p _
    simp [themeSlug, hne]
  · intro s
    simp [themeSlug]

/-- C5 witness: the slugging theorem applied to a concrete two-theme
map and a concrete one-theme map. -/
theorem theme_slugging_witness :
    ([( "Brand Light", ([] : List CSSVariable)), ("Dark Mode", [])].length > 1) ∧
      (buildThemeAwareCssOutput "ts"
        [("Brand Light", []), ("Dark Mode", [])]).map Prod.fst = ["brand", "dark-mode"] ∧
      (buildThemeAwareCssOutput "ts" [("Only", [])]).map Prod.fst = ["theme"] := by
  refine ⟨by decide, ?_, theme_slugging_spec.1 "ts" [("Only", [])] (by decide)⟩
  have h := theme_slugging_spec.2.1 "ts" [("Brand Light", []), ("Dark Mode", [])] (by decide)
  rw [h]
  decide

/- ### C8 — config validation before network -/

/-- If any boundary input is empty, `assertGitHubConfig` reports it. -/
theorem assertGitHubConfig_reports {cfg : GitHubConfig}
    (h : cfg.owner = "" ∨ cfg.repo = "" ∨ cfg.path = "" ∨ cfg.token = "") :
    ∃ rest, assertGitHubConfig cfg =
      some ("GitHub configuration is incomplete. Missing: " ++ rest) := by
  unfold assertGitHubConfig
  set missing : List String :=
    (if cfg.owner = "" then ["owner"] else []) ++
    (if cfg.repo = "" then ["repo"] else []) ++
    (if cfg.path = "" then ["path"] else []) ++
    (if cfg.token = "" then ["token"] else []) with hmiss
  have hne : missing ≠ [] := by
    rcases h with h | h | h | h
    · rw [hmiss]
      simp [h]
    · rw [hmiss]
      intro hc
      rcases List.append_eq_nil.mp hc with ⟨hc1, _⟩
      rcases List.append_eq_nil.mp hc1 with ⟨hc2, hc3⟩
      rcases List.append_eq_nil.mp hc2 with ⟨_, hc4⟩
      simp [h] at hc4
    · rw [hmiss]
      intro hc
      rcases List.append_eq_nil.mp hc with ⟨hc1, _⟩
      rcases List.append_eq_nil.mp hc1 with ⟨_, hc3⟩
      simp [h] at hc3
    · rw [hmiss]
      intro hc
      rcases List.append_eq_nil.mp hc with ⟨_, hc1⟩
      simp [h] at hc1
  have hI : missing.isEmpty = false := by
    cases hm : missing with
    | nil => exact absurd hm hne
    | cons a l => simp
  simp only [hI, Bool.false_eq_true, if_false]
  exact ⟨joinSep ", " missing, rfl⟩

/-- C8: for every invocation of the export with an empty repository
owner, repository name, destination path or auth token, the run fails
with the configuration error and issues no network call at all (an
empty request trace). -/
theorem config_validation_before_network
    (cfg : GitHubConfig) (data : ConversionResult) (env : NetOracle)
    (ts slug label : String)
    (h : cfg.owner = "" ∨ cfg.repo = "" ∨ cfg.path = "" ∨ cfg.token = "") :
    (exportToGitHub cfg data env ts slug label).1.success = false ∧
      (exportToGitHub cfg data env ts slug label).2 = [] ∧
      ∃ rest, (exportToGitHub cfg data env ts slug label).1.message =
        "GitHub configuration is incomplete. Missing: " ++ rest := by
  obtain ⟨rest, hmsg⟩ := assertGitHubConfig_reports h
  unfold exportToGitHub
  rw [hmsg]
  exact ⟨rfl, rfl, ⟨rest, rfl⟩⟩

/-- C8 witness: concrete invocation with an empty token. -/
theorem config_validation_witness :
    ((⟨"owner", "repo", "tokens", ""⟩ : GitHubConfig).token = "") ∧
      (exportToGitHub ⟨"owner", "repo", "tokens", ""⟩ ⟨[], [], none⟩ envAllOk
        "ts" "slug" "label").1.success = false ∧
      (exportToGitHub ⟨"owner", "repo", "tokens", ""⟩ ⟨[], [], none⟩ envAllOk
        "ts" "slug" "label").2 = [] := by
  have h := config_validation_before_network ⟨"owner", "repo", "tokens", ""⟩
    ⟨[], [], none⟩ envAllOk "ts" "slug" "label" (by right; right; right; rfl)
  exact ⟨rfl, h.1, h.2.1⟩

/- ### C2 — alias resolution and cycles -/

/-- C2 counterexample: on the one-variable graph whose alias chain for
mode `m` revisits its own id, the source's `resolveAliasToRawValue`
(which carries no visited set) exhausts every recursion budget — it
never terminates, instead of returning a fallback with a CycleDetected
diagnostic as the claim states. -/
theorem alias_cycle_diverges :
    resolveDiverges oklchDummy cycleGraph cycleVarA "m" := by
  intro fuel
  induction fuel with
  | zero => rfl
  | succ n ih =>
    show resolveAliasToRawValue oklchDummy cycleGraph (n + 1) cycleVarA "m" = none
    simp only [resolveAliasToRawValue]
    exact ih

/-- C2 (amended): the source recursion carries no visited set; on a
graph equipped with a rank certificate (every alias edge for the
queried mode strictly decreases the rank — i.e. the alias chains are
acyclic), resolution terminates with a stable result once the budget
exceeds the start variable's rank, while on a chain that revisits an
id it never terminates (see the counterexample). -/
theorem alias_resolution_terminates_acyclic
    (oklch : FigmaColor → String) (g : VariableGraph) (modeId : String)
    (rank : FigmaVariable → Nat) (v₀ : FigmaVariable)
    (hall : ∀ v ∈ g, aliasRankOk g modeId rank v = true)
    (h0 : aliasRankOk g modeId rank v₀ = true) :
    ∃ r, ∀ fuel, rank v₀ < fuel →
      resolveAliasToRawValue oklch g fuel v₀ modeId = some r := by
  suffices H : ∀ n (v : FigmaVariable), rank v ≤ n →
      aliasRankOk g modeId rank v = true →
      ∃ r, ∀ fuel, rank v < fuel →
        resolveAliasToRawValue oklch g fuel v modeId = some r from
    H (rank v₀) v₀ le_rfl h0
  intro n
  induction n with
  | zero =>
    intro v hv hok
    cases hlv : lookupMode v.valuesByMode modeId with
    | none =>
      refine ⟨none, fun fuel hf => ?_⟩
      obtain ⟨k, rfl⟩ : ∃ k, fuel = k + 1 := ⟨fuel - 1, by omega⟩
      simp [resolveAliasToRawValue, hlv]
    | some raw =>
      cases raw with
      | aliasRef nid =>
        cases hg : getVariableById g nid with
        | none =>
          refine ⟨none, fun fuel hf => ?_⟩
          obtain ⟨k, rfl⟩ : ∃ k, fuel = k + 1 := ⟨fuel - 1, by omega⟩
          simp [resolveAliasToRawValue, hlv, hg]
        | some w =>
          exfalso
          have hcontr := hok
          simp only [aliasRankOk, hlv, hg, decide_eq_true_eq] at hcontr
          omega
      | colorLit c =>
        refine ⟨some (match v.resolvedType with
          | .COLOR => safeColorConversion oklch c v.name
          | .FLOAT => "0"
          | .STRING => ""), fun fuel hf => ?_⟩
        obtain ⟨k, rfl⟩ : ∃ k, fuel = k + 1 := ⟨fuel - 1, by omega⟩
        cases ht : v.resolvedType <;>
          simp [resolveAliasToRawValue, hlv, ht]
      | floatLit q =>
        refine ⟨some (match v.resolvedType with
          | .COLOR => FALLBACK_OKLCH_COLOR
          | .FLOAT => safeFloatConversion q v.name
          | .STRING => ""), fun fuel hf => ?_⟩
        obtain ⟨k, rfl⟩ : ∃ k, fuel = k + 1 := ⟨fuel - 1, by omega⟩
        cases ht : v.resolvedType <;>
          simp [resolveAliasToRawValue, hlv, ht]
      | strLit s =>
        refine ⟨some (match v.resolvedType with
          | .COLOR => FALLBACK_OKLCH_COLOR
          | .FLOAT => "0"
          | .STRING => safeStringConversion s v.name), fun fuel hf => ?_⟩
        obtain ⟨k, rfl⟩ : ∃ k, fuel = k + 1 := ⟨fuel - 1, by omega⟩
        cases ht : v.resolvedType <;>
          simp [resolveAliasToRawValue, hlv, ht]
  | succ n ih =>
    intro v hv hok
    cases hlv : lookupMode v.valuesByMode modeId with
    | none =>
      refine ⟨none, fun fuel hf => ?_⟩
      obtain ⟨k, rfl⟩ : ∃ k, fuel = k + 1 := ⟨fuel - 1, by omega⟩
      simp [resolveAliasToRawValue, hlv]
    | some raw =>
      cases raw with
      | aliasRef nid =>
        cases hg : getVariableById g nid with
        | none =>
          refine ⟨none, fun fuel hf => ?_⟩
          obtain ⟨k, rfl⟩ : ∃ k, fuel = k + 1 := ⟨fuel - 1, by omega⟩
          simp [resolveAliasToRawValue, hlv, hg]
        | some w =>
          have hrw : rank w < rank v := by
            have hcontr := hok
            simp only [aliasRankOk, hlv, hg, decide_eq_true_eq] at hcontr
            exact hcontr
          have hwg : w ∈ g := List.mem_of_find?_eq_some hg
          obtain ⟨r, hr⟩ := ih w (by omega) (hall w hwg)
          refine ⟨r, fun fuel hf => ?_⟩
          obtain ⟨k, rfl⟩ : ∃ k, fuel = k + 1 := ⟨fuel - 1, by omega⟩
          have : resolveAliasToRawValue oklch g (k + 1) v modeId =
              resolveAliasToRawValue oklch g k w modeId := by
            simp [resolveAliasToRawValue, hlv, hg]
          rw [this]
          exact hr k (by omega)
      | colorLit c =>
        refine ⟨some (match v.resolvedType with
          | .COLOR => safeColorConversion oklch c v.name
          | .FLOAT => "0"
          | .STRING => ""), fun fuel hf => ?_⟩
        obtain ⟨k, rfl⟩ : ∃ k, fuel = k + 1 := ⟨fuel - 1, by omega⟩
        cases ht : v.resolvedType <;>
          simp [resolveAliasToRawValue, hlv, ht]
      | floatLit q =>
        refine ⟨some (match v.resolvedType with
          | .COLOR => FALLBACK_OKLCH_COLOR
          | .FLOAT => safeFloatConversion q v.name
          | .STRING => ""), fun fuel hf => ?_⟩
        obtain ⟨k, rfl⟩ : ∃ k, fuel = k + 1 := ⟨fuel - 1, by omega⟩
        cases ht : v.resolvedType <;>
          simp [resolveAliasToRawValue, hlv, ht]
      | strLit s =>
        refine ⟨some (match v.resolvedType with
          | .COLOR => FALLBACK_OKLCH_COLOR
          | .FLOAT => "0"
          | .STRING => safeStringConversion s v.name), fun fuel hf => ?_⟩
        obtain ⟨k, rfl⟩ : ∃ k, fuel = k + 1 := ⟨fuel - 1, by omega⟩
        cases ht : v.resolvedType <;>
          simp [resolveAliasToRawValue, hlv, ht]

/-- C2 witness: the termination theorem on the concrete acyclic chain
`A → B → C`, whose rank certificate is checked by `decide`. -/
theorem alias_resolution_terminates_witness :
    (∀ v ∈ chainGraph, aliasRankOk chainGraph "m" chainRank v = true) ∧
      ∃ r, ∀ fuel, chainRank chainVarA < fuel →
        resolveAliasToRawValue oklchDummy chainGraph fuel chainVarA "m" = some r :=
  ⟨by decide,
   alias_resolution_terminates_acyclic oklchDummy chainGraph "m" chainRank chainVarA
     (by decide) (by decide)⟩

/- ### C9 — alias-chain transparency -/

/-- C9: for an alias chain `A → B → C` where `C` holds a concrete
literal Color value for mode `M` (so `B` and `C` have values for `M`),
resolving `A` for `M` through `convertColorValue` returns exactly the
same output string as resolving `C` directly for `M`.  The OKLCH
converter is arbitrary; only its output's non-emptiness matters (the
source checks the resolved value for truthiness). -/
theorem alias_chain_transparency
    (oklch : FigmaColor → String) (g : VariableGraph)
    (A B C : FigmaVariable) (M idB idC : String) (c : FigmaColor) (fuel : Nat)
    (hM : M ≠ "")
    (hA : lookupMode A.valuesByMode M = some (.aliasRef idB))
    (hBfound : getVariableById g idB = some B)
    (hB : lookupMode B.valuesByMode M = some (.aliasRef idC))
    (hCfound : getVariableById g idC = some C)
    (hC : lookupMode C.valuesByMode M = some (.colorLit c))
    (hCt : C.resolvedType = ResolvedType.COLOR)
    (hne : oklch c ≠ "")
    (hfuel : 2 ≤ fuel) :
    convertColorValue oklch g fuel A M = convertColorValue oklch g fuel C M := by
  obtain ⟨k, rfl⟩ : ∃ k, fuel = k + 2 := ⟨fuel - 2, by omega⟩
  have hresolve : resolveAliasToRawValue oklch g (k + 2) B M = some (some (oklch c)) := by
    show resolveAliasToRawValue oklch g (k + 1 + 1) B M = some (some (oklch c))
    simp only [resolveAliasToRawValue, hB, hCfound]
    show resolveAliasToRawValue oklch g (k + 1) C M = some (some (oklch c))
    simp only [resolveAliasToRawValue, hC, hCt]
    rfl
  have hAne : A.valuesByMode ≠ [] := by
    intro hnil
    rw [hnil] at hA
    simp [lookupMode] at hA
  have hCne : C.valuesByMode ≠ [] := by
    intro hnil
    rw [hnil] at hC
    simp [lookupMode] at hC
  cases hAv : A.valuesByMode with
  | nil => exact absurd hAv hAne
  | cons hd tl =>
    cases hCv : C.valuesByMode with
    | nil => exact absurd hCv hCne
    | cons hd' tl' =>
      obtain ⟨m0, v0⟩ := hd
      obtain ⟨m0', v0'⟩ := hd'
      rw [hAv] at hA
      rw [hCv] at hC
      simp only [convertColorValue, hAv, hCv, if_neg hM, hA, hC, hBfound, hresolve]
      simp [if_neg hne, safeColorConversion]

/-- C9 witness: the transparency theorem on the concrete chain
`chainVarA → chainVarB → chainVarC`. -/
theorem alias_chain_transparency_witness :
    lookupMode chainVarC.valuesByMode "m" = some (.colorLit ⟨1, 0, 0, none⟩) ∧
      convertColorValue oklchDummy chainGraph 2 chainVarA "m" =
        convertColorValue oklchDummy chainGraph 2 chainVarC "m" :=
  ⟨by rfl,
   alias_chain_transparency oklchDummy chainGraph chainVarA chainVarB chainVarC
     "m" "VB" "VC" ⟨1, 0, 0, none⟩ 2 (by decide) (by rfl) (by rfl) (by rfl)
     (by rfl) (by rfl) (by rfl) (by decide) (by omega)⟩

/- ### C4 — numeric conversion -/

/-- C4: `safeFloatConversion` branches on the keyword groups of the
lower-cased name in the fixed precedence opacity/alpha → weight →
duration/timing → z-index → default, producing respectively
`round(clamp(v,0,1)·100) + "%"`, `round(v)` (out-of-range weights
still emitted), `v + "ms"` with negatives mapped to `"0ms"`,
`round(v)` bare, and otherwise pixel-to-rem with base 16 where a
negative value contributes its absolute value; moreover
`pxToRem 16 = "1rem"`, the default conversion of `-8` equals that of
`8`, and an opacity value of `1.5` yields `"100%"`. -/
theorem numeric_conversion_spec :
    (∀ (v : ℚ) (name : String), opacityName name = true →
      safeFloatConversion v name = Int.repr (jsRound (jsClamp v 0 1 * 100)) ++ "%") ∧
    (∀ (v : ℚ) (name : String), opacityName name = false → weightName name = true →
      safeFloatConversion v name = Int.repr (jsRound v)) ∧
    (∀ (v : ℚ) (name : String), opacityName name = false → weightName name = false →
      durationName name = true →
      safeFloatConversion v name =
        if v < 0 then "0ms" else jsNumToString v ++ "ms") ∧
    (∀ (v : ℚ) (name : String), opacityName name = false → weightName name = false →
      durationName name = false → zindexName name = true →
      safeFloatConversion v name = Int.repr (jsRound v)) ∧
    (∀ (v : ℚ) (name : String), opacityName name = false → weightName name = false →
      durationName name = false → zindexName name = false →
      safeFloatConversion v name = pxToRem (if v < 0 then |v| else v)) ∧
    pxToRem 16 = "1rem" ∧
    (∀ name : String, opacityName name = false → weightName name = false →
      durationName name = false → zindexName name = false →
      safeFloatConversion (-8) name = safeFloatConversion 8 name) ∧
    safeFloatConversion (3 / 2) "opacity" = "100%" := by
  have hop : ∀ (v : ℚ) (name : String), opacityName name = true →
      safeFloatConversion v name = Int.repr (jsRound (jsClamp v 0 1 * 100)) ++ "%" := by
    intro v name h
    unfold opacityName at h
    simp [safeFloatConversion, h]
  have hdef : ∀ (v : ℚ) (name : String), opacityName name = false →
      weightName name = false → durationName name = false → zindexName name = false →
      safeFloatConversion v name = pxToRem (if v < 0 then |v| else v) := by
    intro v name h1 h2 h3 h4
    unfold opacityName at h1
    unfold weightName at h2
    unfold durationName at h3
    unfold zindexName at h4
    by_cases hv : v < 0
    · simp [safeFloatConversion, h1, h2, h3, h4, hv]
    · simp [safeFloatConversion, h1, h2, h3, h4, hv]
  refine ⟨hop, ?_, ?_, ?_, hdef, ?_, ?_, ?_⟩
  · intro v name h1 h2
    unfold opacityName at h1
    unfold weightName at h2
    simp [safeFloatConversion, h1, h2]
  · intro v name h1 h2 h3
    unfold opacityName at h1
    unfold weightName at h2
    unfold durationName at h3
    by_cases hv : v < 0
    · simp [safeFloatConversion, h1, h2, h3, hv]
    · simp [safeFloatConversion, h1, h2, h3, hv]
  · intro v name h1 h2 h3 h4
    unfold opacityName at h1
    unfold weightName at h2
    unfold durationName at h3
    unfold zindexName at h4
    simp [safeFloatConversion, h1, h2, h3, h4]
  · show jsNumToString (16 / BASE_FONT_SIZE) ++ "rem" = "1rem"
    have h16 : (16 : ℚ) / BASE_FONT_SIZE = 1 := by
      unfold BASE_FONT_SIZE
      norm_num
    rw [h16]
    have : jsNumToString 1 = "1" := by
      unfold jsNumToString
      rw [if_pos Rat.den_one]
      rw [Rat.num_one]
      rfl
    rw [this]
    rfl
  · intro name h1 h2 h3 h4
    rw [hdef (-8) name h1 h2 h3 h4, hdef 8 name h1 h2 h3 h4]
    norm_num
  · have h := hop (3 / 2) "opacity" (by decide)
    rw [h]
    have hclamp : jsClamp (3 / 2) 0 1 = 1 := by
      unfold jsClamp
      norm_num
    rw [hclamp]
    have hround : jsRound ((1 : ℚ) * 100) = 100 := by
      unfold jsRound
      rw [Int.floor_eq_iff]
      constructor <;> norm_num
    rw [hround]
    rfl

/-- C4 witness: the conversion theorem at concrete names, with the
keyword-group hypotheses checked by `decide`. -/
theorem numeric_conversion_witness :
    weightName "fontWeight" = true ∧ opacityName "fontWeight" = false ∧
      safeFloatConversion 700 "fontWeight" = Int.repr (jsRound 700) ∧
      durationName "animationDuration" = true ∧
      safeFloatConversion (-3) "animationDuration" =
        (if (-3 : ℚ) < 0 then "0ms" else jsNumToString (-3) ++ "ms") :=
  ⟨by decide, by decide,
   numeric_conversion_spec.2.1 700 "fontWeight" (by decide) (by decide),
   by decide,
   numeric_conversion_spec.2.2.1 (-3) "animationDuration" (by decide) (by decide)
     (by decide)⟩

/- ### C6 — document ordering -/

theorem sortByName_eq_of_perm {l₁ l₂ : List NV} (hp : List.Perm l₁ l₂)
    (hn : (l₁.map NV.name).Nodup) : sortByName l₁ = sortByName l₂ :=
  sorted_perm_nodup_eq _ _
    ((sortByName_perm l₁).trans (hp.trans (sortByName_perm l₂).symm))
    (sortByName_pairwise l₁) (sortByName_pairwise l₂)
    (((sortByName_perm l₁).map NV.name).symm.nodup hn)

theorem formatSection_eq_render (label : String) (entries : List NV) :
    formatSection label entries = renderSection label (sortByName entries) := by
  have hlen : (sortByName entries).length = entries.length :=
    (sortByName_perm entries).length_eq
  unfold formatSection renderSection
  cases entries with
  | nil => simp [sortByName]
  | cons x xs =>
    have h1 : (x :: xs).isEmpty = false := rfl
    have h2 : (sortByName (x :: xs)).isEmpty = false := by
      cases hs : sortByName (x :: xs) with
      | nil =>
        rw [hs] at hlen
        simp at hlen
      | cons y ys => rfl
    rw [h1, h2]

theorem groupColor_names_nodup {vars : List CSSVariable}
    (hn : (vars.map CSSVariable.name).Nodup) :
    ((groupColor vars).map NV.name).Nodup := by
  unfold groupColor
  rw [List.map_map]
  have : (NV.name ∘ fun v => (⟨v.name, v.value⟩ : NV)) = CSSVariable.name := rfl
  rw [this]
  exact (List.Sublist.map CSSVariable.name (List.filter_sublist vars)).nodup hn

theorem groupFonts_names_nodup {vars : List CSSVariable}
    (hn : (vars.map CSSVariable.name).Nodup) :
    ((groupFonts vars).map NV.name).Nodup := by
  unfold groupFonts
  rw [List.map_map]
  have : (NV.name ∘ fun v => (⟨v.name, v.value⟩ : NV)) = CSSVariable.name := rfl
  rw [this]
  exact (List.Sublist.map CSSVariable.name (List.filter_sublist vars)).nodup hn

theorem groupMeasures_names_nodup {vars : List CSSVariable}
    (hn : (vars.map CSSVariable.name).Nodup) :
    ((groupMeasures vars).map NV.name).Nodup := by
  unfold groupMeasures
  rw [List.map_map]
  have : (NV.name ∘ fun v => (⟨v.name, v.value⟩ : NV)) = CSSVariable.name := rfl
  rw [this]
  exact (List.Sublist.map CSSVariable.name (List.filter_sublist vars)).nodup hn

/-- C6: the stylesheet always emits its sections in the fixed order
Colors, Fonts, Measures — independent of the input; within each
section the entries are name-sorted and are exactly (a permutation of)
the input entries of that category; the document text renders those
sections in that order; and two inputs that are permutations of each
other (with distinct output names) produce identical documents. -/
theorem document_ordering :
    (∀ vars : List CSSVariable,
      (sectionsOf vars).map Prod.fst = ["Colors", "Fonts", "Measures"]) ∧
    (∀ vars : List CSSVariable, ∀ p ∈ sectionsOf vars, p.2.Pairwise nameLe) ∧
    (∀ vars : List CSSVariable,
      List.Perm (sortByName (groupColor vars)) (groupColor vars) ∧
      List.Perm (sortByName (groupFonts vars)) (groupFonts vars) ∧
      List.Perm (sortByName (groupMeasures vars)) (groupMeasures vars)) ∧
    (∀ (ts : String) (vars : List CSSVariable),
      buildCssOutput ts vars = joinSep "\n"
        ["/*", " * Design tokens exported from Figma",
         " * Exported at: " ++ ts,
         " * Format: Raw CSS variables grouped by kind", " */",
         ":root \x7b",
         joinSep "\n" ((sectionsOf vars).map (fun p => renderSection p.1 p.2)),
         "\x7d", ""]) ∧
    (∀ (ts : String) (vars₁ vars₂ : List CSSVariable), List.Perm vars₁ vars₂ →
      (vars₁.map CSSVariable.name).Nodup →
      buildCssOutput ts vars₁ = buildCssOutput ts vars₂) := by
  refine ⟨fun vars => rfl, ?_, ?_, ?_, ?_⟩
  · intro vars p hp
    simp only [sectionsOf, List.mem_cons, List.not_mem_nil, or_false] at hp
    rcases hp with rfl | rfl | rfl
    all_goals exact sortByName_pairwise _
  · intro vars
    exact ⟨sortByName_perm _, sortByName_perm _, sortByName_perm _⟩
  · intro ts vars
    unfold buildCssOutput sectionsOf
    rw [formatSection_eq_render, formatSection_eq_render, formatSection_eq_render]
    rfl
  · intro ts vars₁ vars₂ hperm hnodup
    have hc : sortByName (groupColor vars₁) = sortByName (groupColor vars₂) :=
      sortByName_eq_of_perm ((hperm.filter _).map _) (groupColor_names_nodup hnodup)
    have hf : sortByName (groupFonts vars₁) = sortByName (groupFonts vars₂) :=
      sortByName_eq_of_perm ((hperm.filter _).map _) (groupFonts_names_nodup hnodup)
    have hm : sortByName (groupMeasures vars₁) = sortByName (groupMeasures vars₂) :=
      sortByName_eq_of_perm ((hperm.filter _).map _) (groupMeasures_names_nodup hnodup)
    unfold buildCssOutput
    rw [formatSection_eq_render, formatSection_eq_render, formatSection_eq_render,
      formatSection_eq_render, formatSection_eq_render, formatSection_eq_render,
      hc, hf, hm]

/-- C6 witness: the ordering theorem at a concrete variable list. -/
theorem document_ordering_witness :
    ((sectionsOf [⟨"--b", "1", "color"⟩, ⟨"--a", "2", "color"⟩]).map Prod.fst =
      ["Colors", "Fonts", "Measures"]) ∧
      (List.Perm
        ([⟨"--b", "1", "color"⟩, ⟨"--a", "2", "color"⟩] : List CSSVariable)
        [⟨"--a", "2", "color"⟩, ⟨"--b", "1", "color"⟩]) ∧
      buildCssOutput "ts" [⟨"--b", "1", "color"⟩, ⟨"--a", "2", "color"⟩] =
        buildCssOutput "ts" [⟨"--a", "2", "color"⟩, ⟨"--b", "1", "color"⟩] := by
  refine ⟨document_ordering.1 _, ?_, ?_⟩
  · decide
  · exact document_ordering.2.2.2.2 "ts" _ _ (by decide) (by decide)

/- ### C10 — base64 encoding -/

theorem lor_shift_add (x y k : Nat) (hy : y < 2 ^ k) :
    (x <<< k) ||| y = x * 2 ^ k + y := by
  apply Nat.eq_of_testBit_eq
  intro i
  rw [Nat.testBit_lor, Nat.testBit_shiftLeft]
  have hrhs : x * 2 ^ k + y = 2 ^ k * x + y := by ring
  rw [hrhs, Nat.testBit_mul_pow_two_add x hy i]
  by_cases h : i < k
  · have : ¬(i ≥ k) := by omega
    simp [h, this]
  · have hik : i ≥ k := by omega
    have hyi : y.testBit i = false :=
      Nat.testBit_lt_two_pow
        (lt_of_lt_of_le hy (Nat.pow_le_pow_right (by norm_num) hik))
    simp [h, hik, hyi]

theorem bitmap_eq (a b c : Nat) (hb : b < 256) (hc : c < 256) :
    ((a <<< 16) ||| (b <<< 8)) ||| c = a * 65536 + b * 256 + c := by
  have hb8 : b <<< 8 = b * 256 := by
    rw [Nat.shiftLeft_eq, show (2 : ℕ) ^ 8 = 256 from rfl]
  have h1 : (a <<< 16) ||| (b <<< 8) = a * 65536 + b * 256 := by
    rw [hb8, lor_shift_add a (b * 256) 16
      (by rw [show (2 : ℕ) ^ 16 = 65536 from rfl]; omega),
      show (2 : ℕ) ^ 16 = 65536 from rfl]
  have h2 : a * 65536 + b * 256 = (a * 256 + b) <<< 8 := by
    rw [Nat.shiftLeft_eq, show (2 : ℕ) ^ 8 = 256 from rfl]
    ring
  rw [h1, h2, lor_shift_add _ c 8
    (by rw [show (2 : ℕ) ^ 8 = 256 from rfl]; omega),
    Nat.shiftLeft_eq, show (2 : ℕ) ^ 8 = 256 from rfl]

theorem and63_eq_mod (x : Nat) : x &&& 63 = x % 64 := by
  have h := Nat.and_pow_two_sub_one_eq_mod x 6
  norm_num at h
  exact h

/-- The four 6-bit values of one encoder group, in closed div/mod
form. -/
theorem b64group_bits (a b c : Nat) (ha : a < 256) (hb : b < 256) (hc : c < 256) :
    ((((a <<< 16) ||| (b <<< 8)) ||| c) >>> 18) &&& 63 = a / 4 ∧
    ((((a <<< 16) ||| (b <<< 8)) ||| c) >>> 12) &&& 63 = (a % 4) * 16 + b / 16 ∧
    ((((a <<< 16) ||| (b <<< 8)) ||| c) >>> 6) &&& 63 = (b % 16) * 4 + c / 64 ∧
    (((a <<< 16) ||| (b <<< 8)) ||| c) &&& 63 = c % 64 := by
  rw [bitmap_eq a b c hb hc, Nat.shiftRight_eq_div_pow, Nat.shiftRight_eq_div_pow,
    Nat.shiftRight_eq_div_pow, and63_eq_mod, and63_eq_mod, and63_eq_mod, and63_eq_mod,
    show (2 : ℕ) ^ 18 = 262144 from rfl, show (2 : ℕ) ^ 12 = 4096 from rfl,
    show (2 : ℕ) ^ 6 = 64 from rfl]
  omega

theorem b64value_b64charAt : ∀ v < 64, b64value (b64charAt v) = some v := by decide

theorem b64charAt_mem : ∀ v < 64, b64charAt v ∈ b64chars := by decide

theorem b64charAt_ne_pad : ∀ v < 64, b64charAt v ≠ '=' := by decide

/-- The four characters of an encoder group, explicitly. -/
theorem b64group_eq (a b c : Nat) (ha : a < 256) (hb : b < 256) (hc : c < 256) :
    b64group a b c =
      [b64charAt (a / 4), b64charAt ((a % 4) * 16 + b / 16),
       b64charAt ((b % 16) * 4 + c / 64), b64charAt (c % 64)] := by
  obtain ⟨h1, h2, h3, h4⟩ := b64group_bits a b c ha hb hc
  simp only [b64group]
  rw [h1, h2, h3, h4]

theorem base64Encode_nil : base64Encode [] = [] := rfl

theorem base64Encode_one (a : Nat) (ha : a < 256) :
    base64Encode [a] =
      [b64charAt (a / 4), b64charAt ((a % 4) * 16), '=', '='] := by
  simp only [base64Encode]
  norm_num
  rw [show base64Core [a] = b64group a 0 0 from rfl,
    b64group_eq a 0 0 ha (by norm_num) (by norm_num)]
  rfl

theorem base64Encode_two (a b : Nat) (ha : a < 256) (hb : b < 256) :
    base64Encode [a, b] =
      [b64charAt (a / 4), b64charAt ((a % 4) * 16 + b / 16),
       b64charAt ((b % 16) * 4), '='] := by
  simp only [base64Encode]
  norm_num
  rw [show base64Core [a, b] = b64group a b 0 from rfl,
    b64group_eq a b 0 ha hb (by norm_num)]
  rfl

theorem base64Core_first_group (x : Nat) (xs : List Nat) :
    ∃ p q r s rest', base64Core (x :: xs) = p :: q :: r :: s :: rest' := by
  cases xs with
  | nil => exact ⟨_, _, _, _, [], rfl⟩
  | cons y ys =>
    cases ys with
    | nil => exact ⟨_, _, _, _, [], rfl⟩
    | cons z zs => exact ⟨_, _, _, _, base64Core zs, rfl⟩

theorem base64Encode_cons3 (a b c : Nat) (rest : List Nat) :
    base64Encode (a :: b :: c :: rest) = b64group a b c ++ base64Encode rest := by
  simp only [base64Encode]
  have hlen : (a :: b :: c :: rest).length % 3 = rest.length % 3 := by
    simp only [List.length_cons]
    omega
  rw [hlen, show base64Core (a :: b :: c :: rest) = b64group a b c ++ base64Core rest
    from rfl]
  rcases rest with _ | ⟨x, xs⟩
  · norm_num
  · obtain ⟨p, q, r', s, rest', hshape⟩ := base64Core_first_group x xs
    rw [hshape]
    have hne1 : (p :: q :: r' :: s :: rest') ≠ ([] : List Char) := by simp
    have hne2 : (p :: q :: r' :: s :: rest').dropLast ≠ ([] : List Char) := by
      intro hnil
      have hlc := congrArg List.length hnil
      simp [List.length_dropLast] at hlc
    by_cases h1 : (x :: xs).length % 3 = 1
    · simp only [if_pos h1]
      rw [List.dropLast_append_of_ne_nil _ hne1,
        List.dropLast_append_of_ne_nil _ hne2, List.append_assoc]
    · by_cases h2 : (x :: xs).length % 3 = 2
      · simp only [if_neg h1, if_pos h2]
        rw [List.dropLast_append_of_ne_nil _ hne1, List.append_assoc]
      · simp only [if_neg h1, if_neg h2]

theorem base64Encode_head (x : Nat) (xs : List Nat) :
    ∃ v t, base64Encode (x :: xs) = b64charAt v :: t ∧ v < 64 := by
  have hv : ∀ y z : Nat, ((((x <<< 16) ||| (y <<< 8)) ||| z) >>> 18) &&& 63 < 64 := by
    intro y z
    rw [and63_eq_mod]
    omega
  cases xs with
  | nil => exact ⟨_, _, rfl, hv 0 0⟩
  | cons y ys =>
    cases ys with
    | nil => exact ⟨_, _, rfl, hv y 0⟩
    | cons z zs =>
      refine ⟨(((x <<< 16) ||| (y <<< 8)) ||| z) >>> 18 &&& 63,
        [b64charAt ((((x <<< 16) ||| (y <<< 8)) ||| z) >>> 12 &&& 63),
         b64charAt ((((x <<< 16) ||| (y <<< 8)) ||| z) >>> 6 &&& 63),
         b64charAt ((((x <<< 16) ||| (y <<< 8)) ||| z) &&& 63)] ++ base64Encode zs,
        ?_, hv y z⟩
      rw [base64Encode_cons3]
      rfl

theorem base64Encode_ne_nil (x : Nat) (xs : List Nat) :
    base64Encode (x :: xs) ≠ [] := by
  obtain ⟨v, t, heq, _⟩ := base64Encode_head x xs
  rw [heq]
  simp

/-- Appending after a block that contains a non-matching character
does not change the `takeWhile` prefix. -/
theorem takeWhile_append_of_exists_not {p : Char → Bool} {m : List Char}
    (k : List Char) (h : ∃ ch ∈ m, p ch = false) :
    (m ++ k).takeWhile p = m.takeWhile p := by
  induction m with
  | nil =>
    obtain ⟨ch, hmem, _⟩ := h
    exact absurd hmem (List.not_mem_nil ch)
  | cons c cs ih =>
    cases hc : p c with
    | true =>
      simp only [List.cons_append, List.takeWhile_cons, hc]
      obtain ⟨ch, hmem, hch⟩ := h
      rcases List.mem_cons.mp hmem with rfl | hmem'
      · rw [hc] at hch
        cases hch
      · rw [ih ⟨ch, hmem', hch⟩]
    | false =>
      simp only [List.cons_append, List.takeWhile_cons, hc, Bool.false_eq_true,
        if_false]

/-- The four claimed properties of `base64Encode`, proved together by
induction over the encoder's three-byte chunks. -/
theorem base64Encode_props : ∀ (n : Nat) (l : List Nat), l.length ≤ n →
    (∀ x ∈ l, x < 256) →
    (base64Encode l).length = 4 * ((l.length + 2) / 3) ∧
    (∀ ch ∈ base64Encode l, ch ∈ b64chars ∨ ch = '=') ∧
    trailingEqCount (base64Encode l) = (3 - l.length % 3) % 3 ∧
    base64Decode (base64Encode l) = some l := by
  intro n
  induction n with
  | zero =>
    intro l hl _
    have : l = [] := List.eq_nil_of_length_eq_zero (by omega)
    subst this
    exact ⟨rfl, by simp [base64Encode_nil], rfl, rfl⟩
  | succ n ih =>
    intro l hl hb
    match l with
    | [] => exact ⟨rfl, by simp [base64Encode_nil], rfl, rfl⟩
    | [a] =>
      have ha : a < 256 := hb a (by simp)
      have h1v : a / 4 < 64 := by omega
      have h2v : (a % 4) * 16 < 64 := by omega
      rw [base64Encode_one a ha]
      refine ⟨by simp, ?_, ?_, ?_⟩
      · intro ch hch
        rcases List.mem_cons.mp hch with rfl | hch
        · exact Or.inl (b64charAt_mem _ h1v)
        rcases List.mem_cons.mp hch with rfl | hch
        · exact Or.inl (b64charAt_mem _ h2v)
        rcases List.mem_cons.mp hch with rfl | hch
        · exact Or.inr rfl
        rcases List.mem_cons.mp hch with rfl | hch
        · exact Or.inr rfl
        · exact absurd hch (List.not_mem_nil ch)
      · have hne : (b64charAt ((a % 4) * 16) = '=') = False :=
          eq_false (b64charAt_ne_pad _ h2v)
        simp [trailingEqCount, hne]
      · simp only [base64Decode]
        rw [if_pos (by simp),
          b64value_b64charAt _ h1v, b64value_b64charAt _ h2v]
        simp only [Option.bind_eq_bind, Option.some_bind, Option.some.injEq,
          List.cons.injEq, and_true]
        omega
    | [a, b] =>
      have ha : a < 256 := hb a (by simp)
      have hbb : b < 256 := hb b (by simp)
      have h1v : a / 4 < 64 := by omega
      have h2v : (a % 4) * 16 + b / 16 < 64 := by omega
      have h3v : (b % 16) * 4 < 64 := by omega
      rw [base64Encode_two a b ha hbb]
      refine ⟨by simp, ?_, ?_, ?_⟩
      · intro ch hch
        rcases List.mem_cons.mp hch with rfl | hch
        · exact Or.inl (b64charAt_mem _ h1v)
        rcases List.mem_cons.mp hch with rfl | hch
        · exact Or.inl (b64charAt_mem _ h2v)
        rcases List.mem_cons.mp hch with rfl | hch
        · exact Or.inl (b64charAt_mem _ h3v)
        rcases List.mem_cons.mp hch with rfl | hch
        · exact Or.inr rfl
        · exact absurd hch (List.not_mem_nil ch)
      · have hne : (b64charAt ((b % 16) * 4) = '=') = False :=
          eq_false (b64charAt_ne_pad _ h3v)
        simp [trailingEqCount, hne]
      · simp only [base64Decode]
        rw [if_neg (by simp [b64charAt_ne_pad _ h3v]), if_pos (by simp),
          b64value_b64charAt _ h1v, b64value_b64charAt _ h2v, b64value_b64charAt _ h3v]
        simp only [Option.bind_eq_bind, Option.some_bind, Option.some.injEq,
          List.cons.injEq, and_true]
        refine ⟨?_, ?_⟩ <;> omega
    | a :: b :: c :: rest =>
      have ha : a < 256 := hb a (by simp)
      have hbb : b < 256 := hb b (by simp)
      have hc : c < 256 := hb c (by simp)
      have hbrest : ∀ x ∈ rest, x < 256 := fun x hx => hb x (by simp [hx])
      have hlrest : rest.length ≤ n := by
        simp only [List.length_cons] at hl
        omega
      obtain ⟨ih1, ih2, ih3, ih4⟩ := ih rest hlrest hbrest
      have h1v : a / 4 < 64 := by omega
      have h2v : (a % 4) * 16 + b / 16 < 64 := by omega
      have h3v : (b % 16) * 4 + c / 64 < 64 := by omega
      have h4v : c % 64 < 64 := by omega
      rw [base64Encode_cons3, b64group_eq a b c ha hbb hc]
      refine ⟨?_, ?_, ?_, ?_⟩
      · simp only [List.length_append, List.length_cons, List.length_nil, ih1]
        omega
      · intro ch hch
        rcases List.mem_append.mp hch with hch | hch
        · rcases List.mem_cons.mp hch with rfl | hch
          · exact Or.inl (b64charAt_mem _ h1v)
          rcases List.mem_cons.mp hch with rfl | hch
          · exact Or.inl (b64charAt_mem _ h2v)
          rcases List.mem_cons.mp hch with rfl | hch
          · exact Or.inl (b64charAt_mem _ h3v)
          rcases List.mem_cons.mp hch with rfl | hch
          · exact Or.inl (b64charAt_mem _ h4v)
          · exact absurd hch (List.not_mem_nil ch)
        · exact ih2 ch hch
      · rcases rest with _ | ⟨x, xs⟩
        · have hne : (b64charAt (c % 64) = '=') = False :=
            eq_false (b64charAt_ne_pad _ h4v)
          simp [trailingEqCount, base64Encode_nil, hne]
        · obtain ⟨v, t, hhead, hvlt⟩ := base64Encode_head x xs
          have hex : ∃ ch ∈ (base64Encode (x :: xs)).reverse,
              decide (ch = '=') = false := by
            refine ⟨b64charAt v, ?_, ?_⟩
            · rw [hhead]
              simp
            · simp [b64charAt_ne_pad _ hvlt]
          unfold trailingEqCount at ih3 ⊢
          rw [List.reverse_append, takeWhile_append_of_exists_not _ hex, ih3]
          simp only [List.length_cons]
          omega
      · rcases rest with _ | ⟨x, xs⟩
        · simp only [base64Encode_nil, List.append_nil, base64Decode]
          rw [if_neg (by simp [b64charAt_ne_pad _ h3v]),
            if_neg (by simp [b64charAt_ne_pad _ h4v]),
            b64value_b64charAt _ h1v, b64value_b64charAt _ h2v,
            b64value_b64charAt _ h3v, b64value_b64charAt _ h4v]
          simp only [base64Decode, Option.bind_eq_bind, Option.some_bind,
            Option.some.injEq, List.append_nil, List.cons.injEq, and_true]
          refine ⟨?_, ?_, ?_⟩ <;> omega
        · have hne0 : (base64Encode (x :: xs)).isEmpty = false := by
            cases hh : base64Encode (x :: xs) with
            | nil => exact absurd hh (base64Encode_ne_nil x xs)
            | cons y ys => rfl
          simp only [List.cons_append, List.nil_append, base64Decode]
          rw [if_neg (by simp [hne0]), if_neg (by simp [hne0]),
            b64value_b64charAt _ h1v, b64value_b64charAt _ h2v,
            b64value_b64charAt _ h3v, b64value_b64charAt _ h4v]
          simp only [List.append_eq, List.nil_append, ih4, Option.bind_eq_bind,
            Option.some_bind, Option.some.injEq, List.cons.injEq, and_true]
          refine ⟨?_, ?_, ?_⟩ <;> omega

/-- C10: for every input string whose UTF-16 code units are all bytes,
`base64Encode` produces the RFC 4648 base64 encoding of those bytes:
the output length is `4 * ceil(n / 3)`, every output character is in
the base64 alphabet or is `'='` padding, the amount of trailing `'='`
padding is determined by `n mod 3`, and a reference RFC 4648 decoder
recovers the original code units exactly. -/
theorem base64_rfc4648 (l : List Nat) (h : ∀ x ∈ l, x < 256) :
    (base64Encode l).length = 4 * ((l.length + 2) / 3) ∧
    (∀ ch ∈ base64Encode l, ch ∈ b64chars ∨ ch = '=') ∧
    trailingEqCount (base64Encode l) = (3 - l.length % 3) % 3 ∧
    base64Decode (base64Encode l) = some l :=
  base64Encode_props l.length l le_rfl h

/-- C10 witness: the encoding properties on the bytes of `"Hi!"` and
of `"Hi"` (a padded block). -/
theorem base64_rfc4648_witness :
    (∀ x ∈ [72, 105, 33], x < 256) ∧
      (base64Encode [72, 105, 33]).length = 4 ∧
      base64Decode (base64Encode [72, 105, 33]) = some [72, 105, 33] ∧
      trailingEqCount (base64Encode [72, 105]) = 1 :=
  ⟨by decide,
   (base64_rfc4648 [72, 105, 33] (by decide)).1,
   (base64_rfc4648 [72, 105, 33] (by decide)).2.2.2,
   (base64_rfc4648 [72, 105] (by decide)).2.2.1⟩

/- ### Protocol trace lemmas -/

theorem resolveBaseLoop_trace (cfg : GitHubConfig) (env : NetOracle) :
    ∀ (cands : List String) (tr : List GitRequest),
      ∃ new, (resolveBaseLoop cfg env cands tr).1 = tr ++ new ∧
        ∀ q ∈ new, ∃ o r b, q = GitRequest.getRef o r b := by
  intro cands
  induction cands with
  | nil =>
    intro tr
    exact ⟨[], by simp [resolveBaseLoop], by simp⟩
  | cons c cs ih =>
    intro tr
    by_cases h : (env tr.length).ok = true
    · refine ⟨[.getRef cfg.owner cfg.repo c], ?_, ?_⟩
      · simp only [resolveBaseLoop]
        rw [if_pos h]
      · intro q hq
        rcases List.mem_cons.mp hq with rfl | hq
        · exact ⟨_, _, _, rfl⟩
        · exact absurd hq (List.not_mem_nil q)
    · obtain ⟨new, hnew, hall⟩ := ih (tr ++ [.getRef cfg.owner cfg.repo c])
      refine ⟨.getRef cfg.owner cfg.repo c :: new, ?_, ?_⟩
      · simp only [resolveBaseLoop]
        rw [if_neg h, hnew]
        simp
      · intro q hq
        rcases List.mem_cons.mp hq with rfl | hq
        · exact ⟨_, _, _, rfl⟩
        · exact hall q hq

theorem createBranchLoop_trace (cfg : GitHubConfig) (env : NetOracle)
    (baseSha fb : String) :
    ∀ (fuel attempt : Nat) (tr : List GitRequest),
      ∃ new, (createBranchLoop cfg env baseSha fb fuel attempt tr).1 = tr ++ new ∧
        ∀ q ∈ new, ∃ ref, q = GitRequest.postRef cfg.owner cfg.repo ref baseSha := by
  intro fuel
  induction fuel with
  | zero =>
    intro attempt tr
    exact ⟨[], by simp [createBranchLoop], by simp⟩
  | succ n ih =>
    intro attempt tr
    by_cases h : (env tr.length).ok = true
    · refine ⟨[.postRef cfg.owner cfg.repo
        ("refs/heads/" ++ (if attempt = 0 then fb else fb ++ "-" ++ Nat.repr attempt))
        baseSha], ?_, ?_⟩
      · simp only [createBranchLoop]
        rw [if_pos h]
      · intro q hq
        rcases List.mem_cons.mp hq with rfl | hq
        · exact ⟨_, rfl⟩
        · exact absurd hq (List.not_mem_nil q)
    · by_cases h2 : (env tr.length).status = 422 ∧
          containsSub (env tr.length).message "already exists" = true
      · obtain ⟨new, hnew, hall⟩ := ih (attempt + 1) (tr ++ [.postRef cfg.owner cfg.repo
          ("refs/heads/" ++ (if attempt = 0 then fb else fb ++ "-" ++ Nat.repr attempt))
          baseSha])
        refine ⟨.postRef cfg.owner cfg.repo
          ("refs/heads/" ++ (if attempt = 0 then fb else fb ++ "-" ++ Nat.repr attempt))
          baseSha :: new, ?_, ?_⟩
        · simp only [createBranchLoop]
          rw [if_neg h, if_pos h2, hnew]
          simp
        · intro q hq
          rcases List.mem_cons.mp hq with rfl | hq
          · exact ⟨_, rfl⟩
          · exact hall q hq
      · refine ⟨[.postRef cfg.owner cfg.repo
          ("refs/heads/" ++ (if attempt = 0 then fb else fb ++ "-" ++ Nat.repr attempt))
          baseSha], ?_, ?_⟩
        · simp only [createBranchLoop]
          rw [if_neg h, if_neg h2]
          split
          · rfl
          · split
            · rfl
            · split <;> rfl
        · intro q hq
          rcases List.mem_cons.mp hq with rfl | hq
          · exact ⟨_, rfl⟩
          · exact absurd hq (List.not_mem_nil q)

theorem createBranchLoop_ok (cfg : GitHubConfig) (env : NetOracle)
    (baseSha fb : String) :
    ∀ (fuel attempt : Nat) (tr : List GitRequest) (bn : String),
      (createBranchLoop cfg env baseSha fb fuel attempt tr).2 = .ok bn →
      ∃ pre, (createBranchLoop cfg env baseSha fb fuel attempt tr).1 =
          pre ++ [GitRequest.postRef cfg.owner cfg.repo ("refs/heads/" ++ bn) baseSha] ∧
        (env pre.length).ok = true := by
  intro fuel
  induction fuel with
  | zero =>
    intro attempt tr bn h
    simp [createBranchLoop] at h
  | succ n ih =>
    intro attempt tr bn h
    by_cases hok : (env tr.length).ok = true
    · simp only [createBranchLoop] at h ⊢
      rw [if_pos hok] at h ⊢
      cases h
      exact ⟨tr, rfl, hok⟩
    · by_cases h2 : (env tr.length).status = 422 ∧
          containsSub (env tr.length).message "already exists" = true
      · simp only [createBranchLoop] at h ⊢
        rw [if_neg hok, if_pos h2] at h ⊢
        exact ih (attempt + 1) _ bn h
      · exfalso
        simp only [createBranchLoop] at h
        rw [if_neg hok, if_neg h2] at h
        split at h
        · cases h
        · split at h
          · cases h
          · split at h <;> cases h

theorem createBlobsLoop_trace (cfg : GitHubConfig) (env : NetOracle) :
    ∀ (files : List (String × String)) (tr : List GitRequest),
      ∃ new, (createBlobsLoop cfg env files tr).1 = tr ++ new ∧
        ∀ q ∈ new, ∃ o r ct enc, q = GitRequest.postBlob o r ct enc := by
  intro files
  induction files with
  | nil =>
    intro tr
    exact ⟨[], by simp [createBlobsLoop], by simp⟩
  | cons f fs ih =>
    intro tr
    obtain ⟨themeName, content⟩ := f
    set req : GitRequest := .postBlob cfg.owner cfg.repo
      ⟨base64Encode (((if content = "" then "/* No variables exported */"
        else content) : String).data.map Char.toNat)⟩ "base64" with hreq
    by_cases h : (env tr.length).ok = true
    · obtain ⟨new, hnew, hall⟩ := ih (tr ++ [req])
      rcases hrec : createBlobsLoop cfg env fs (tr ++ [req]) with ⟨tr2, res⟩
      refine ⟨req :: new, ?_, ?_⟩
      · simp only [createBlobsLoop]
        rw [if_pos h, hrec]
        have htr2 : tr2 = tr ++ [req] ++ new := by
          rw [← hnew, hrec]
        cases res with
        | ok items =>
          simp only []
          rw [htr2]
          simp
        | error e =>
          simp only []
          rw [htr2]
          simp
      · intro q hq
        rcases List.mem_cons.mp hq with rfl | hq
        · exact ⟨_, _, _, _, rfl⟩
        · exact hall q hq
    · refine ⟨[req], ?_, ?_⟩
      · simp only [createBlobsLoop]
        rw [if_neg h]
      · intro q hq
        rcases List.mem_cons.mp hq with rfl | hq
        · exact ⟨_, _, _, _, rfl⟩
        · exact absurd hq (List.not_mem_nil q)

theorem refsAfterAux_append (env : NetOracle) :
    ∀ (l₁ l₂ : List GitRequest) (i : Nat) (refs : String → Option String),
      refsAfterAux env (l₁ ++ l₂) i refs =
        refsAfterAux env l₂ (i + l₁.length) (refsAfterAux env l₁ i refs) := by
  intro l₁
  induction l₁ with
  | nil =>
    intro l₂ i refs
    simp [refsAfterAux]
  | cons q l₁ ih =>
    intro l₂ i refs
    simp only [List.cons_append, refsAfterAux, List.length_cons, List.append_eq]
    rw [ih, show i + 1 + l₁.length = i + (l₁.length + 1) from by omega]

theorem refsAfterAux_no_ref_requests (env : NetOracle) :
    ∀ (l : List GitRequest) (i : Nat) (refs : String → Option String),
      (∀ q ∈ l, (∀ o r ref sha, q ≠ GitRequest.postRef o r ref sha) ∧
        (∀ o r br sha f, q ≠ GitRequest.patchRef o r br sha f)) →
      ∀ b, refsAfterAux env l i refs b = refs b := by
  intro l
  induction l with
  | nil => intro i refs _ b; rfl
  | cons q l ih =>
    intro i refs hq b
    have hqhead := hq q (List.mem_cons_self q l)
    have hrest : ∀ p ∈ l, (∀ o r ref sha, p ≠ GitRequest.postRef o r ref sha) ∧
        (∀ o r br sha f, p ≠ GitRequest.patchRef o r br sha f) :=
      fun p hp => hq p (List.mem_cons_of_mem q hp)
    simp only [refsAfterAux]
    rw [ih (i + 1) _ hrest]
    cases q with
    | postRef o r ref sha => exact absurd rfl (hqhead.1 o r ref sha)
    | patchRef o r br sha f => exact absurd rfl (hqhead.2 o r br sha f)
    | getRef o r b' => rfl
    | getCommit o r s => rfl
    | postBlob o r c e => rfl
    | postTree o r bt t => rfl
    | postCommit o r m t p => rfl

theorem refsAfterAux_ok_postRef (env : NetOracle) (i : Nat)
    (o r bn sha : String) (refs : String → Option String)
    (hok : (env i).ok = true) :
    refsAfterAux env [GitRequest.postRef o r ("refs/heads/" ++ bn) sha] i refs bn =
      some sha := by
  simp only [refsAfterAux, refEventApply]
  rw [hok]
  simp

theorem refsAfter_branch_at_base (env : NetOracle) (pre suffix : List GitRequest)
    (o r bn sha : String) (hok : (env pre.length).ok = true)
    (hsuffix : ∀ q ∈ suffix, (∀ o' r' ref s', q ≠ GitRequest.postRef o' r' ref s') ∧
      (∀ o' r' b' s' f, q ≠ GitRequest.patchRef o' r' b' s' f)) :
    refsAfter env
      ((pre ++ [GitRequest.postRef o r ("refs/heads/" ++ bn) sha]) ++ suffix) bn =
      some sha := by
  unfold refsAfter
  rw [refsAfterAux_append, refsAfterAux_append,
    refsAfterAux_no_ref_requests env suffix _ _ hsuffix]
  simp only [Nat.zero_add]
  exact refsAfterAux_ok_postRef env pre.length o r bn sha _ hok

theorem refsAfter_extend_no_ref (env : NetOracle) (l suffix : List GitRequest)
    (hsuffix : ∀ q ∈ suffix, (∀ o' r' ref s', q ≠ GitRequest.postRef o' r' ref s') ∧
      (∀ o' r' b' s' f, q ≠ GitRequest.patchRef o' r' b' s' f)) (b : String) :
    refsAfter env (l ++ suffix) b = refsAfter env l b := by
  unfold refsAfter
  rw [refsAfterAux_append, refsAfterAux_no_ref_requests env suffix _ _ hsuffix]

/-- Complete case analysis of one protocol run: either it failed at a
step before the ref update — and then the result is a failure, no
`PATCH` was ever issued, and any created feature branch still points
at the base commit SHA — or it reached the ref update, and the trace
ends with exactly one `PATCH` on the created feature branch. -/
theorem push_cases (cfg : GitHubConfig) (slug label : String)
    (files : List (String × String)) (env : NetOracle) :
    (∃ s, (pushCssThemesToGitHub cfg slug label files env).failedStep = some s ∧
      s ≠ ProtocolStep.updateRef ∧
      (pushCssThemesToGitHub cfg slug label files env).response.success = false ∧
      (∀ q ∈ (pushCssThemesToGitHub cfg slug label files env).trace,
        q.isPatchRef = false) ∧
      (∀ bn, (pushCssThemesToGitHub cfg slug label files env).featureBranchCreated =
          some bn →
        ∃ sha, (pushCssThemesToGitHub cfg slug label files env).baseShaUsed = some sha ∧
          refsAfter env (pushCssThemesToGitHub cfg slug label files env).trace bn =
            some sha)) ∨
    (((pushCssThemesToGitHub cfg slug label files env).failedStep = none ∨
        (pushCssThemesToGitHub cfg slug label files env).failedStep =
          some ProtocolStep.updateRef) ∧
      ∃ big bn sha,
        (pushCssThemesToGitHub cfg slug label files env).trace =
          big ++ [GitRequest.patchRef cfg.owner cfg.repo bn sha false] ∧
        (pushCssThemesToGitHub cfg slug label files env).featureBranchCreated =
          some bn ∧
        ∀ q ∈ big, q.isPatchRef = false) := by
  have hsingle : ∀ (o' r' c e : String),
      (∀ o2 r2 ref s2, GitRequest.postBlob o' r' c e ≠ GitRequest.postRef o2 r2 ref s2) ∧
      (∀ o2 r2 b2 s2 f, GitRequest.postBlob o' r' c e ≠ GitRequest.patchRef o2 r2 b2 s2 f) :=
    fun _ _ _ _ => ⟨fun _ _ _ _ h => (by cases h), fun _ _ _ _ _ h => (by cases h)⟩
  have hgc : ∀ (o' r' s' : String),
      (∀ o2 r2 ref s2, GitRequest.getCommit o' r' s' ≠ GitRequest.postRef o2 r2 ref s2) ∧
      (∀ o2 r2 b2 s2 f, GitRequest.getCommit o' r' s' ≠ GitRequest.patchRef o2 r2 b2 s2 f) :=
    fun _ _ _ => ⟨fun _ _ _ _ h => (by cases h), fun _ _ _ _ _ h => (by cases h)⟩
  have hpt : ∀ (o' r' bt : String) (t : List GitHubTreeItem),
      (∀ o2 r2 ref s2, GitRequest.postTree o' r' bt t ≠ GitRequest.postRef o2 r2 ref s2) ∧
      (∀ o2 r2 b2 s2 f, GitRequest.postTree o' r' bt t ≠ GitRequest.patchRef o2 r2 b2 s2 f) :=
    fun _ _ _ _ => ⟨fun _ _ _ _ h => (by cases h), fun _ _ _ _ _ h => (by cases h)⟩
  have hpc : ∀ (o' r' m t : String) (p : List String),
      (∀ o2 r2 ref s2, GitRequest.postCommit o' r' m t p ≠ GitRequest.postRef o2 r2 ref s2) ∧
      (∀ o2 r2 b2 s2 f, GitRequest.postCommit o' r' m t p ≠ GitRequest.patchRef o2 r2 b2 s2 f) :=
    fun _ _ _ _ _ => ⟨fun _ _ _ _ h => (by cases h), fun _ _ _ _ _ h => (by cases h)⟩
  unfold pushCssThemesToGitHub
  by_cases h0 : files.isEmpty = true
  · rw [if_pos h0]
    refine Or.inl ⟨.validate, rfl, by decide, rfl, ?_, ?_⟩
    · intro q hq
      exact absurd hq (List.not_mem_nil q)
    · intro bn hbn
      cases hbn
  · rw [if_neg h0]
    by_cases h1 : cfg.path = ""
    · rw [if_pos h1]
      refine Or.inl ⟨.validate, rfl, by decide, rfl, ?_, ?_⟩
      · intro q hq
        exact absurd hq (List.not_mem_nil q)
      · intro bn hbn
        cases hbn
    · rw [if_neg h1]
      obtain ⟨new1, htr1, hall1⟩ := resolveBaseLoop_trace cfg env ["master", "main"] []
      split
      · rename_i tr1 hrb
        rw [hrb] at htr1
        replace htr1 : tr1 = [] ++ new1 := htr1
        refine Or.inl ⟨.resolveBase, rfl, by decide, rfl, ?_, ?_⟩
        · intro q hq
          rw [htr1] at hq
          simp only [List.nil_append] at hq
          obtain ⟨o, r, b, rfl⟩ := hall1 q hq
          rfl
        · intro bn hbn
          cases hbn
      · rename_i tr1 baseBranch baseSha hrb
        rw [hrb] at htr1
        replace htr1 : tr1 = [] ++ new1 := htr1
        simp only [List.nil_append] at htr1
        obtain ⟨new2, htr2, hall2⟩ := createBranchLoop_trace cfg env baseSha
          ("feat/figma-variables-" ++ slug) 3 0 tr1
        dsimp only
        split
        · rename_i tr2 msg hcb
          rw [hcb] at htr2
          replace htr2 : tr2 = tr1 ++ new2 := htr2
          refine Or.inl ⟨.createRef, rfl, by decide, rfl, ?_, ?_⟩
          · intro q hq
            rw [htr2] at hq
            rcases List.mem_append.mp hq with hq | hq
            · rw [htr1] at hq
              obtain ⟨o, r, b, rfl⟩ := hall1 q hq
              rfl
            · obtain ⟨ref, rfl⟩ := hall2 q hq
              rfl
          · intro bn hbn
            cases hbn
        · rename_i tr2 featureBranch hcb
          rw [hcb] at htr2
          replace htr2 : tr2 = tr1 ++ new2 := htr2
          have htrmem2 : ∀ q ∈ tr2, q.isPatchRef = false := by
            intro q hq
            rw [htr2] at hq
            rcases List.mem_append.mp hq with hq | hq
            · rw [htr1] at hq
              obtain ⟨o, r, b, rfl⟩ := hall1 q hq
              rfl
            · obtain ⟨ref, rfl⟩ := hall2 q hq
              rfl
          obtain ⟨pre, hpre, hpreok⟩ := createBranchLoop_ok cfg env baseSha
            ("feat/figma-variables-" ++ slug) 3 0 tr1 featureBranch (by rw [hcb])
          rw [hcb] at hpre
          replace hpre : tr2 = pre ++ [GitRequest.postRef cfg.owner cfg.repo
            ("refs/heads/" ++ featureBranch) baseSha] := hpre
          have hbase2 : ∀ suffix, (∀ q ∈ suffix,
              (∀ o' r' ref s', q ≠ GitRequest.postRef o' r' ref s') ∧
              (∀ o' r' b' s' f, q ≠ GitRequest.patchRef o' r' b' s' f)) →
              refsAfter env (tr2 ++ suffix) featureBranch = some baseSha := by
            intro suffix hsuf
            rw [hpre]
            exact refsAfter_branch_at_base env pre suffix _ _ _ _ hpreok hsuf
          split
          · rename_i hcr
            refine Or.inl ⟨.fetchBaseTree, rfl, by decide, rfl, ?_, ?_⟩
            · intro q hq
              rcases List.mem_append.mp hq with hq | hq
              · exact htrmem2 q hq
              · rcases List.mem_cons.mp hq with rfl | hq
                · rfl
                · exact absurd hq (List.not_mem_nil q)
            · intro bn hbn
              cases hbn
              refine ⟨baseSha, rfl, ?_⟩
              refine hbase2 _ ?_
              intro q hq
              rcases List.mem_cons.mp hq with rfl | hq
              · exact hgc _ _ _
              · exact absurd hq (List.not_mem_nil q)
          · rename_i hcr
            obtain ⟨new3, htr3, hall3⟩ := createBlobsLoop_trace cfg env files
              (tr2 ++ [.getCommit cfg.owner cfg.repo baseSha])
            split
            · rename_i tr3 msg hbl
              rw [hbl] at htr3
              replace htr3 : tr3 = (tr2 ++ [GitRequest.getCommit cfg.owner cfg.repo
                baseSha]) ++ new3 := htr3
              refine Or.inl ⟨.createBlob, rfl, by decide, rfl, ?_, ?_⟩
              · intro q hq
                rw [htr3] at hq
                rcases List.mem_append.mp hq with hq | hq
                · rcases List.mem_append.mp hq with hq | hq
                  · exact htrmem2 q hq
                  · rcases List.mem_cons.mp hq with rfl | hq
                    · rfl
                    · exact absurd hq (List.not_mem_nil q)
                · obtain ⟨o, r, ct, enc, rfl⟩ := hall3 q hq
                  rfl
              · intro bn hbn
                cases hbn
                refine ⟨baseSha, rfl, ?_⟩
                rw [htr3, List.append_assoc]
                refine hbase2 _ ?_
                intro q hq
                rcases List.mem_append.mp hq with hq | hq
                · rcases List.mem_cons.mp hq with rfl | hq
                  · exact hgc _ _ _
                  · exact absurd hq (List.not_mem_nil q)
                · obtain ⟨o, r, ct, enc, rfl⟩ := hall3 q hq
                  exact hsingle _ _ _ _
            · rename_i tr3 treeItems hbl
              rw [hbl] at htr3
              replace htr3 : tr3 = (tr2 ++ [GitRequest.getCommit cfg.owner cfg.repo
                baseSha]) ++ new3 := htr3
              have htrmem3 : ∀ q ∈ tr3, q.isPatchRef = false := by
                intro q hq
                rw [htr3] at hq
                rcases List.mem_append.mp hq with hq | hq
                · rcases List.mem_append.mp hq with hq | hq
                  · exact htrmem2 q hq
                  · rcases List.mem_cons.mp hq with rfl | hq
                    · rfl
                    · exact absurd hq (List.not_mem_nil q)
                · obtain ⟨o, r, ct, enc, rfl⟩ := hall3 q hq
                  rfl
              have hbase3 : ∀ suffix, (∀ q ∈ suffix,
                  (∀ o' r' ref s', q ≠ GitRequest.postRef o' r' ref s') ∧
                  (∀ o' r' b' s' f, q ≠ GitRequest.patchRef o' r' b' s' f)) →
                  refsAfter env (tr3 ++ suffix) featureBranch = some baseSha := by
                intro suffix hsuf
                rw [htr3, List.append_assoc, List.append_assoc]
                refine hbase2 _ ?_
                intro q hq
                rcases List.mem_append.mp hq with hq | hq
                · rcases List.mem_cons.mp hq with rfl | hq
                  · exact hgc _ _ _
                  · exact absurd hq (List.not_mem_nil q)
                · rcases List.mem_append.mp hq with hq | hq
                  · obtain ⟨o, r, ct, enc, rfl⟩ := hall3 q hq
                    exact hsingle _ _ _ _
                  · exact hsuf q hq
              split
              · rename_i htrfail
                refine Or.inl ⟨.createTree, rfl, by decide, rfl, ?_, ?_⟩
                · intro q hq
                  rcases List.mem_append.mp hq with hq | hq
                  · exact htrmem3 q hq
                  · rcases List.mem_cons.mp hq with rfl | hq
                    · rfl
                    · exact absurd hq (List.not_mem_nil q)
                · intro bn hbn
                  cases hbn
                  refine ⟨baseSha, rfl, ?_⟩
                  refine hbase3 _ ?_
                  intro q hq
                  rcases List.mem_cons.mp hq with rfl | hq
                  · exact hpt _ _ _ _
                  · exact absurd hq (List.not_mem_nil q)
              · rename_i htrok
                split
                · rename_i hcmfail
                  refine Or.inl ⟨.createCommit, rfl, by decide, rfl, ?_, ?_⟩
                  · intro q hq
                    rcases List.mem_append.mp hq with hq | hq
                    · rcases List.mem_append.mp hq with hq | hq
                      · exact htrmem3 q hq
                      · rcases List.mem_cons.mp hq with rfl | hq
                        · rfl
                        · exact absurd hq (List.not_mem_nil q)
                    · rcases List.mem_cons.mp hq with rfl | hq
                      · rfl
                      · exact absurd hq (List.not_mem_nil q)
                  · intro bn hbn
                    cases hbn
                    refine ⟨baseSha, rfl, ?_⟩
                    rw [List.append_assoc]
                    refine hbase3 _ ?_
                    intro q hq
                    rcases List.mem_append.mp hq with hq | hq
                    · rcases List.mem_cons.mp hq with rfl | hq
                      · exact hpt _ _ _ _
                      · exact absurd hq (List.not_mem_nil q)
                    · rcases List.mem_cons.mp hq with rfl | hq
                      · exact hpc _ _ _ _ _
                      · exact absurd hq (List.not_mem_nil q)
                · rename_i hcmok
                  have hbig : ∀ q ∈ ((tr3 ++ [GitRequest.postTree cfg.owner cfg.repo
                      (env tr2.length).sha treeItems]) ++
                      [GitRequest.postCommit cfg.owner cfg.repo
                        ("feat(figma-variables): Figma variables exported " ++ label ++
                          "\n\nExported themes: " ++ themesLabelOf (files.map Prod.fst) ++
                          "\nBase branch: " ++ baseBranch)
                        (env tr3.length).sha [baseSha]]),
                      q.isPatchRef = false := by
                    intro q hq
                    rcases List.mem_append.mp hq with hq | hq
                    · rcases List.mem_append.mp hq with hq | hq
                      · exact htrmem3 q hq
                      · rcases List.mem_cons.mp hq with rfl | hq
                        · rfl
                        · exact absurd hq (List.not_mem_nil q)
                    · rcases List.mem_cons.mp hq with rfl | hq
                      · rfl
                      · exact absurd hq (List.not_mem_nil q)
                  split
                  · rename_i hupfail
                    exact Or.inr ⟨Or.inr rfl, _, featureBranch, _, rfl, rfl, hbig⟩
                  · rename_i hupok
                    exact Or.inr ⟨Or.inl rfl, _, featureBranch, _, rfl, rfl, hbig⟩

theorem createBranchLoop_length (cfg : GitHubConfig) (env : NetOracle)
    (baseSha fb : String) :
    ∀ (fuel attempt : Nat) (tr : List GitRequest),
      (createBranchLoop cfg env baseSha fb fuel attempt tr).1.length ≤
        tr.length + fuel := by
  intro fuel
  induction fuel with
  | zero => intro attempt tr; simp [createBranchLoop]
  | succ fuel ih =>
    intro attempt tr
    simp only [createBranchLoop]
    split
    · simp only [List.length_append, List.length_cons, List.length_nil]
      omega
    · split
      · have := ih (attempt + 1)
          (tr ++ [.postRef cfg.owner cfg.repo
            ("refs/heads/" ++ (if attempt = 0 then fb
              else fb ++ "-" ++ Nat.repr attempt)) baseSha])
        simp only [List.length_append, List.length_cons, List.length_nil] at this
        omega
      · split
        · simp only [List.length_append, List.length_cons, List.length_nil]
          omega
        · split
          · simp only [List.length_append, List.length_cons, List.length_nil]
            omega
          · split
            · simp only [List.length_append, List.length_cons, List.length_nil]
              omega
            · simp only [List.length_append, List.length_cons, List.length_nil]
              omega

/-- C1: Commit atomicity — whenever the protocol records a failing
step other than the final ref update, the structured result is a
failure, no `PATCH` ref-update request appears anywhere in the
execution's trace, and if the feature branch had already been created
it still points at the resolved base commit SHA under the
replay semantics of the trace. -/
theorem commit_atomicity (cfg : GitHubConfig) (slug label : String)
    (files : List (String × String)) (env : NetOracle) (s : ProtocolStep)
    (hfail : (pushCssThemesToGitHub cfg slug label files env).failedStep = some s)
    (hs : s ≠ ProtocolStep.updateRef) :
    (pushCssThemesToGitHub cfg slug label files env).response.success = false ∧
    (∀ q ∈ (pushCssThemesToGitHub cfg slug label files env).trace,
      q.isPatchRef = false) ∧
    (∀ bn, (pushCssThemesToGitHub cfg slug label files env).featureBranchCreated =
        some bn →
      ∃ sha, (pushCssThemesToGitHub cfg slug label files env).baseShaUsed = some sha ∧
        refsAfter env (pushCssThemesToGitHub cfg slug label files env).trace bn =
          some sha) := by
  rcases push_cases cfg slug label files env with
    ⟨s', h1, _, h3, h4, h5⟩ | ⟨h1, _⟩
  · exact ⟨h3, h4, h5⟩
  · rcases h1 with h1 | h1
    · rw [hfail] at h1
      cases h1
    · rw [hfail] at h1
      injection h1 with h1
      exact absurd h1 hs

theorem commit_atomicity_witness :
    (pushCssThemesToGitHub cfgDemo "s" "l" demoThemes envTreeFail).response.success =
      false ∧
    (∀ q ∈ (pushCssThemesToGitHub cfgDemo "s" "l" demoThemes envTreeFail).trace,
      q.isPatchRef = false) ∧
    (∀ bn, (pushCssThemesToGitHub cfgDemo "s" "l" demoThemes
        envTreeFail).featureBranchCreated = some bn →
      ∃ sha, (pushCssThemesToGitHub cfgDemo "s" "l" demoThemes
          envTreeFail).baseShaUsed = some sha ∧
        refsAfter envTreeFail
          (pushCssThemesToGitHub cfgDemo "s" "l" demoThemes envTreeFail).trace bn =
          some sha) :=
  commit_atomicity cfgDemo "s" "l" demoThemes envTreeFail ProtocolStep.createTree
    (by decide) (by decide)

/-- C7: Bounded branch-collision retry — with no fuel left the loop
fails fatally with the fixed message; a successful `POST refs` stops
the loop at the currently suffixed name; a 422 response whose body
mentions "already exists" retries under the next incremented numeric
suffix; any other failed response aborts immediately with exactly one
more request issued; a run at the protocol's 3-attempt budget issues
at most 3 requests; and a `PATCH` ending the protocol's trace always
targets exactly the branch the loop created. -/
theorem branch_collision_retry (cfg : GitHubConfig) (env : NetOracle)
    (baseSha fb : String) (fuel attempt : Nat) (tr : List GitRequest) :
    (createBranchLoop cfg env baseSha fb 0 attempt tr =
      (tr, .error "Failed to create feature branch after multiple attempts")) ∧
    ((env tr.length).ok = true →
      createBranchLoop cfg env baseSha fb (fuel + 1) attempt tr =
        (tr ++ [.postRef cfg.owner cfg.repo
            ("refs/heads/" ++ branchNameAt fb attempt) baseSha],
         .ok (branchNameAt fb attempt))) ∧
    ((env tr.length).ok = false → (env tr.length).status = 422 →
      containsSub (env tr.length).message "already exists" = true →
      createBranchLoop cfg env baseSha fb (fuel + 1) attempt tr =
        createBranchLoop cfg env baseSha fb fuel (attempt + 1)
          (tr ++ [.postRef cfg.owner cfg.repo
            ("refs/heads/" ++ branchNameAt fb attempt) baseSha])) ∧
    ((env tr.length).ok = false →
      ¬((env tr.length).status = 422 ∧
        containsSub (env tr.length).message "already exists" = true) →
      ∃ msg, createBranchLoop cfg env baseSha fb (fuel + 1) attempt tr =
        (tr ++ [.postRef cfg.owner cfg.repo
            ("refs/heads/" ++ branchNameAt fb attempt) baseSha],
         .error msg)) ∧
    ((createBranchLoop cfg env baseSha fb 3 0 tr).1.length ≤ tr.length + 3) ∧
    (∀ slug label files big o2 r2 bn sha f,
      (pushCssThemesToGitHub cfg slug label files env).trace =
        big ++ [GitRequest.patchRef o2 r2 bn sha f] →
      (pushCssThemesToGitHub cfg slug label files env).featureBranchCreated =
        some bn) := by
  refine ⟨rfl, ?_, ?_, ?_, createBranchLoop_length cfg env baseSha fb 3 0 tr, ?_⟩
  · intro hok
    simp only [createBranchLoop]
    rw [if_pos hok]
    rfl
  · intro hok h422 hmsg
    simp only [createBranchLoop]
    rw [hok]
    simp only [Bool.false_eq_true, if_false]
    rw [if_pos ⟨h422, hmsg⟩]
    rfl
  · intro hok hnot
    simp only [createBranchLoop]
    rw [hok]
    simp only [Bool.false_eq_true, if_false]
    rw [if_neg hnot]
    split
    · exact ⟨_, rfl⟩
    · split
      · exact ⟨_, rfl⟩
      · split
        · exact ⟨_, rfl⟩
        · exact ⟨_, rfl⟩
  · intro slug label files big o2 r2 bn sha f htr
    rcases push_cases cfg slug label files env with
      ⟨s', _, _, _, h4, _⟩ | ⟨_, big', bn', sha', htr', hfb, _⟩
    · have hmem : GitRequest.patchRef o2 r2 bn sha f ∈
          (pushCssThemesToGitHub cfg slug label files env).trace := by
        rw [htr]
        exact List.mem_append_right big (List.mem_singleton.mpr rfl)
      have := h4 _ hmem
      simp [GitRequest.isPatchRef] at this
    · rw [htr'] at htr
      have hlast : (big ++ [GitRequest.patchRef o2 r2 bn sha f]).getLast? =
          some (GitRequest.patchRef o2 r2 bn sha f) := List.getLast?_concat big
      rw [← htr, List.getLast?_concat] at hlast
      injection hlast with hlast
      cases hlast
      exact hfb

theorem branch_collision_retry_witness :
    createBranchLoop cfgDemo envCollideOnce "b" "feat" 3 1
        [GitRequest.getRef "o" "r" "m"] =
      createBranchLoop cfgDemo envCollideOnce "b" "feat" 2 2
        ([GitRequest.getRef "o" "r" "m"] ++
          [GitRequest.postRef cfgDemo.owner cfgDemo.repo
            ("refs/heads/" ++ branchNameAt "feat" 1) "b"]) :=
  (branch_collision_retry cfgDemo envCollideOnce "b" "feat" 2 1
    [GitRequest.getRef "o" "r" "m"]).2.2.1 (by decide) (by decide) (by decide)
